import Mathlib

/-!
# BCM2835 interrupt controller driver (`Demo/Drivers/interrupts.c`)

A shallow embedding of the driver: the vector table, the software mirror of the
enabled lines, the memory-mapped register block, the bit-scan dispatch loop and
the control API, followed by the properties proved about them.

Conventions.
* `unsigned long` / `unsigned int` are 32 bits wide on this target (ARM1176).
  Arithmetic is done on natural numbers; a stored word is reduced modulo `2 ^ 32`
  (`w32`), and the complement `~mask` is written `0xFFFFFFFF ^^^ mask`.
* Pointers are addresses (`Nat`); the null pointer is `0`.
* A handler is code outside the driver.  A call through a function pointer runs
  the handler (its effect on the machine is supplied by the environment `ext`)
  and is recorded as a `Call`.
-/

namespace Interrupts

/-- Modelled from the spec: the macro `BCM2835_INTC_TOTAL_IRQ` of the header
`bcm2835_intc.h`, which is not among the sources; the spec fixes the number of
interrupt lines at 72 (banks of 32, 32 and 8). -/
abbrev BCM2835_INTC_TOTAL_IRQ : Nat := 72

/-- A value of type `FN_INTERRUPT_HANDLER`: either the address of the driver's own
`stubHandler` or the address of a handler that lives outside the driver. -/
inductive FN_INTERRUPT_HANDLER where
  | stubHandler : FN_INTERRUPT_HANDLER
  | handlerAt (addr : Nat) : FN_INTERRUPT_HANDLER
  deriving DecidableEq, Repr

/-- An entry of the vector table (`INTERRUPT_VECTOR`): handler and context pointer. -/
structure INTERRUPT_VECTOR where
  pfnHandler : FN_INTERRUPT_HANDLER
  pParam : Nat
  deriving DecidableEq, Repr

/-- The ten registers of `BCM2835_INTC_REGS`, in the order of the structure. -/
inductive Reg where
  | IRQBasic | Pending1 | Pending2 | FIQCtrl
  | Enable1 | Enable2 | EnableBasic
  | Disable1 | Disable2 | DisableBasic
  deriving DecidableEq, Repr

/-- A 32-bit word: an `unsigned long` variable or a hardware register. -/
abbrev Word32 : Type := Fin 4294967296

/-- The value a 32-bit word holds after a store of `n`: `n` modulo `2 ^ 32`. -/
def w32 (n : Nat) : Word32 := ⟨n % 4294967296, Nat.mod_lt n (by decide)⟩

/-- The machine state the driver works on.

* `g_VectorTable`, `enabled` : the two static arrays of the driver.
* `IRQBasic`, `Pending1`, `Pending2` : what a read of these registers returns.
* `writes` : every store the driver made to the register block, oldest first.
* `hwEnable` : the enable latch of each bank inside the controller.
* `cpsrI` : the I bit of the CPSR; `true` means IRQ delivery is masked. -/
structure State where
  g_VectorTable : Fin BCM2835_INTC_TOTAL_IRQ → INTERRUPT_VECTOR
  enabled : Fin 3 → Word32
  IRQBasic : Word32
  Pending1 : Word32
  Pending2 : Word32
  writes : List (Reg × Nat)
  hwEnable : Fin 3 → Word32
  cpsrI : Bool

/-- One call through a vector-table entry: `pfnHandler (irq, pParam)`. -/
structure Call where
  pfnHandler : FN_INTERRUPT_HANDLER
  irq : Nat
  pParam : Nat
  deriving DecidableEq, Repr

/-- Where the C code leaves defined behaviour: an index outside `g_VectorTable`.
The source makes no check; it would read past the table and call what it finds
there, which C leaves undefined, so the embedding stops at that point and says
nothing about what follows. -/
inductive Fault where
  | vectorIndex (irq : Nat) : Fault
  deriving DecidableEq, Repr

/-- The behaviour of the handlers outside the driver: the handler at address
`addr`, called with `(irq, pParam)`, takes the machine from one state to another. -/
abbrev Handlers : Type := Nat → Nat → Nat → State → State

/-! ## Hardware -/

/-- Modelled from the spec: the controller's reaction to a store, which is
hardware and not code.  An enable register is write-1-to-set and a disable
register is write-1-to-clear on the enable latch of its bank; stores to the other
registers do not touch the latches. -/
def hwStore (r : Reg) (v : Nat) (hw : Fin 3 → Word32) : Fin 3 → Word32 :=
  match r with
  | .Enable1 => Function.update hw 0 (w32 ((hw 0).val ||| v))
  | .Enable2 => Function.update hw 1 (w32 ((hw 1).val ||| v))
  | .EnableBasic => Function.update hw 2 (w32 ((hw 2).val ||| v))
  | .Disable1 => Function.update hw 0 (w32 ((hw 0).val &&& (0xFFFFFFFF ^^^ v)))
  | .Disable2 => Function.update hw 1 (w32 ((hw 1).val &&& (0xFFFFFFFF ^^^ v)))
  | .DisableBasic => Function.update hw 2 (w32 ((hw 2).val &&& (0xFFFFFFFF ^^^ v)))
  | _ => hw

/-- The store `pRegs->r = v` to the volatile register block. -/
def regWrite (r : Reg) (v : Nat) (s : State) : State :=
  { s with writes := s.writes ++ [(r, v)], hwEnable := hwStore r v s.hwEnable }

/-- The source's `irqEnable`: `cpsie i` clears the I bit. -/
def irqEnable (s : State) : State := { s with cpsrI := false }

/-- The source's `irqDisable`: `cpsid i` sets the I bit. -/
def irqDisable (s : State) : State := { s with cpsrI := true }

/-! ## The dispatcher -/

/-- Leading zeros of `x` among the bit positions below `n`, scanning downwards
from position `n - 1`. -/
def clzBelow (x : Nat) : Nat → Nat
  | 0 => 0
  | n + 1 => if x.testBit n then 0 else clzBelow x n + 1

/-- The compiler builtin `__builtin_clz` on a 32-bit word: the number of leading
zero bits.  (The builtin is undefined at 0; the loop never calls it there.) -/
def builtin_clz (x : Nat) : Nat := clzBelow x 32

/-- The source's `stubHandler`: an empty body. -/
def stubHandler (_irq : Nat) (_pParam : Nat) (s : State) : State := s

/-- The indirect call `pfnHandler (irq, pParam)`. -/
def invoke (ext : Handlers) (f : FN_INTERRUPT_HANDLER) (irq pParam : Nat) (s : State) : State :=
  match f with
  | .stubHandler => stubHandler irq pParam s
  | .handlerAt addr => ext addr irq pParam s

/-- The word `pending &= ~(1UL << bit)` leaves in `pending`. -/
def clearBit (pending bit : Nat) : Nat := pending &&& (0xFFFFFFFF ^^^ (1 <<< bit))

/-- Position of the highest set bit, as the loop computes it: `31 - __builtin_clz(pending)`. -/
def topBit (pending : Nat) : Nat := 31 - builtin_clz pending

/-! ### The loop of `handleRange` terminates

Clearing the bit found by `topBit` makes a non-zero word strictly smaller; the
definition of `handleRange` below recurses on that. -/

theorem clzBelow_of_top (x k : Nat) (hk : x.testBit k = true) :
    ∀ n, k < n → (∀ j, k < j → j < n → x.testBit j = false) → clzBelow x n = n - 1 - k := by
  intro n
  induction n with
  | zero => intro h; omega
  | succ m ih =>
    intro hlt hhi
    by_cases hkm : k = m
    · subst hkm
      simp [clzBelow, hk]
    · have hm : x.testBit m = false := hhi m (by omega) (by omega)
      have := ih (by omega) (fun j h1 h2 => hhi j h1 (by omega))
      simp [clzBelow, hm, this]
      omega

theorem exists_top_of_word (x : Nat) (h0 : x ≠ 0) (h32 : x < 2 ^ 32) :
    ∃ k, k < 32 ∧ x.testBit k = true ∧ ∀ j, k < j → x.testBit j = false := by
  obtain ⟨k, hk, hhi⟩ := Nat.exists_most_significant_bit h0
  refine ⟨k, ?_, hk, hhi⟩
  by_contra hge
  have hle : 2 ^ 32 ≤ 2 ^ k := Nat.pow_le_pow_right (by decide) (by omega)
  have := Nat.testBit_lt_two_pow (lt_of_lt_of_le h32 hle)
  simp [hk] at this

theorem topBit_of_top (x k : Nat) (hk32 : k < 32) (hk : x.testBit k = true)
    (hhi : ∀ j, k < j → x.testBit j = false) : topBit x = k := by
  have := clzBelow_of_top x k hk 32 hk32 (fun j h1 _ => hhi j h1)
  unfold topBit builtin_clz
  omega

theorem topBit_lt (x : Nat) : topBit x < 32 := by
  unfold topBit
  omega

theorem testBit_clearBit (x b i : Nat) (hb : b < 32) :
    (clearBit x b).testBit i = (x.testBit i && decide (i < 32) && decide (i ≠ b)) := by
  unfold clearBit
  have h : (4294967295 : Nat) = 2 ^ 32 - 1 := by decide
  rw [Nat.testBit_and, Nat.testBit_xor, h, Nat.testBit_two_pow_sub_one, Nat.one_shiftLeft,
    Nat.testBit_two_pow]
  clear h
  by_cases h1 : i < 32 <;> by_cases h2 : i = b
  · subst h2; simp [h1]
  · have h3 : ¬ b = i := fun h => h2 h.symm
    simp [h1, h2, h3]
  · have h3 : ¬ b = i := by omega
    simp [h1, h3]
  · have h3 : ¬ b = i := fun h => h2 h.symm
    simp [h1, h3]

theorem clearBit_lt_word (x b : Nat) (hb : b < 32) : clearBit x b < 2 ^ 32 := by
  apply Nat.lt_pow_two_of_testBit
  intro i hi
  rw [testBit_clearBit x b i hb]
  have : ¬ i < 32 := by omega
  simp [this]

theorem clearBit_topBit_lt (pending : Nat) (h0 : pending ≠ 0) :
    clearBit pending (topBit pending) < pending := by
  by_cases h32 : pending < 2 ^ 32
  · obtain ⟨k, hk32, hk, hhi⟩ := exists_top_of_word pending h0 h32
    rw [topBit_of_top pending k hk32 hk hhi]
    apply Nat.lt_of_testBit k
    · simp [testBit_clearBit pending k k hk32]
    · exact hk
    · intro j hj
      rw [testBit_clearBit pending k j hk32, hhi j hj]
      simp
  · exact lt_of_lt_of_le (clearBit_lt_word pending _ (topBit_lt pending)) (by omega)

/-- The source's `handleRange`: while bits remain in the local copy `pending`, take
the highest one, call the vector-table entry of line `base + bit`, clear the bit.
The result is the state the handlers left and the calls made, in order.  The
source indexes the table unchecked; where `base + bit` lies outside the 72 entries
the C code has no defined behaviour, and the embedding ends the run in
`Fault.vectorIndex` there.  `irqHandler` never passes such a word. -/
def handleRange (ext : Handlers) (pending : Nat) (base : Nat) (s : State) :
    Except Fault (State × List Call) :=
  if _hp : pending = 0 then
    .ok (s, [])
  else
    let bit := topBit pending
    let irq := base + bit
    if h : irq < BCM2835_INTC_TOTAL_IRQ then
      let v := s.g_VectorTable ⟨irq, h⟩
      let s1 := invoke ext v.pfnHandler irq v.pParam s
      match handleRange ext (clearBit pending bit) base s1 with
      | .ok (s2, calls) => .ok (s2, ⟨v.pfnHandler, irq, v.pParam⟩ :: calls)
      | .error f => .error f
    else
      .error (.vectorIndex irq)
termination_by pending
decreasing_by exact clearBit_topBit_lt pending (by assumption)

/-- The source's `irqHandler`: one read of `IRQBasic`, then the three banks in turn.
`Pending1`, `Pending2` and `enabled[]` are read when their bank is reached. -/
def irqHandler (ext : Handlers) (s : State) : Except Fault (State × List Call) :=
  let ulMaskedStatus : Nat := s.IRQBasic.val
  match (if ulMaskedStatus &&& (1 <<< 8) ≠ 0 then
      handleRange ext (s.Pending1.val &&& (s.enabled 0).val) 0 s else .ok (s, [])) with
  | .error f => .error f
  | .ok (s1, c1) =>
    match (if ulMaskedStatus &&& (1 <<< 9) ≠ 0 then
        handleRange ext (s1.Pending2.val &&& (s1.enabled 1).val) 32 s1 else .ok (s1, [])) with
    | .error f => .error f
    | .ok (s2, c2) =>
      match (if ulMaskedStatus &&& 0xFF ≠ 0 then
          handleRange ext (ulMaskedStatus &&& 0xFF &&& (s2.enabled 2).val) 64 s2 else .ok (s2, [])) with
      | .error f => .error f
      | .ok (s3, c3) => .ok (s3, c1 ++ c2 ++ c3)

/-! ## The control API -/

/-- The store `g_VectorTable[irq].pfnHandler = f`. -/
def writeHandler (irq : Fin BCM2835_INTC_TOTAL_IRQ) (f : FN_INTERRUPT_HANDLER) (s : State) : State :=
  { s with g_VectorTable :=
      Function.update s.g_VectorTable irq { s.g_VectorTable irq with pfnHandler := f } }

/-- The store `g_VectorTable[irq].pParam = p`. -/
def writeParam (irq : Fin BCM2835_INTC_TOTAL_IRQ) (p : Nat) (s : State) : State :=
  { s with g_VectorTable :=
      Function.update s.g_VectorTable irq { s.g_VectorTable irq with pParam := p } }

/-- The source's `InitInterruptController`: the loop over `i = 0 .. 71` stores the
stub and a null context in entry `i`; the result is 0. -/
def InitInterruptController (s : State) : Int × State :=
  (0, (List.finRange BCM2835_INTC_TOTAL_IRQ).foldl
        (fun st i => writeParam i 0 (writeHandler i .stubHandler st)) s)

/-- The source's `RegisterInterrupt`. -/
def RegisterInterrupt (irq : Nat) (pfnHandler : FN_INTERRUPT_HANDLER) (pParam : Nat)
    (s : State) : Int × State :=
  if h : irq ≥ BCM2835_INTC_TOTAL_IRQ then
    (-1, s)
  else
    let i : Fin BCM2835_INTC_TOTAL_IRQ := ⟨irq, Nat.lt_of_not_ge h⟩
    (0, irqEnable (writeParam i pParam (writeHandler i pfnHandler (irqDisable s))))

/-- The statement `enabled[k] |= mask`. -/
def orEnabled (k : Fin 3) (mask : Nat) (s : State) : State :=
  { s with enabled := Function.update s.enabled k (w32 ((s.enabled k).val ||| mask)) }

/-- The statement `enabled[k] &= ~mask`. -/
def andNotEnabled (k : Fin 3) (mask : Nat) (s : State) : State :=
  { s with enabled :=
      Function.update s.enabled k (w32 ((s.enabled k).val &&& (0xFFFFFFFF ^^^ mask))) }

/-- The source's `EnableInterrupt`. -/
def EnableInterrupt (irq : Nat) (s : State) : Int × State :=
  let mask := 1 <<< (irq % 32)
  if irq ≤ 31 then
    (0, orEnabled 0 mask (regWrite .Enable1 mask s))
  else if irq ≤ 63 then
    (0, orEnabled 1 mask (regWrite .Enable2 mask s))
  else if irq < BCM2835_INTC_TOTAL_IRQ then
    (0, orEnabled 2 mask (regWrite .EnableBasic mask s))
  else
    (-1, s)

/-- The source's `DisableInterrupt`. -/
def DisableInterrupt (irq : Nat) (s : State) : Int × State :=
  let mask := 1 <<< (irq % 32)
  if irq ≤ 31 then
    (0, andNotEnabled 0 mask (regWrite .Disable1 mask s))
  else if irq ≤ 63 then
    (0, andNotEnabled 1 mask (regWrite .Disable2 mask s))
  else if irq < BCM2835_INTC_TOTAL_IRQ then
    (0, andNotEnabled 2 mask (regWrite .DisableBasic mask s))
  else
    (-1, s)

/-- The source's `EnableInterrupts`. -/
def EnableInterrupts (s : State) : Int × State := (0, irqEnable s)

/-- The source's `DisableInterrupts`. -/
def DisableInterrupts (s : State) : Int × State := (0, irqDisable s)

/-! ## Vocabulary of the properties -/

/-- The bank of a line: 0 for lines 0-31, 1 for 32-63, 2 for 64-71. -/
def bankOf (line : Nat) : Fin 3 := if line ≤ 31 then 0 else if line ≤ 63 then 1 else 2

/-- The enable register of a bank. -/
def enableReg (k : Fin 3) : Reg :=
  match k with
  | 0 => .Enable1
  | 1 => .Enable2
  | 2 => .EnableBasic

/-- The disable register of a bank. -/
def disableReg (k : Fin 3) : Reg :=
  match k with
  | 0 => .Disable1
  | 1 => .Disable2
  | 2 => .DisableBasic

/-- The set bit positions of `x` below `n`, highest first. -/
def bitsBelow (x : Nat) : Nat → List Nat
  | 0 => []
  | n + 1 => if x.testBit n then n :: bitsBelow x n else bitsBelow x n

/-- The entry of line `irq`, if the table has one. -/
def entryAt (s : State) (irq : Nat) : Option INTERRUPT_VECTOR :=
  if h : irq < BCM2835_INTC_TOTAL_IRQ then some (s.g_VectorTable ⟨irq, h⟩) else none

/-- The state after the given calls have run, one after the other. -/
def replay (ext : Handlers) (calls : List Call) (s : State) : State :=
  calls.foldl (fun st c => invoke ext c.pfnHandler c.irq c.pParam st) s

/-- Every call of the list is the vector-table entry of its line as the table
stands when the call is made, the calls before it having run from `s`. -/
def CallsFromTable (ext : Handlers) (s : State) (calls : List Call) : Prop :=
  ∀ pre c post, calls = pre ++ c :: post →
    entryAt (replay ext pre s) c.irq = some ⟨c.pfnHandler, c.pParam⟩

/-- The line is enabled in the software mirror: bit `line mod 32` of the `enabled`
word of its bank. -/
def lineEnabled (s : State) (line : Nat) : Prop :=
  (s.enabled (bankOf line)).val.testBit (line % 32) = true

/-- The pending bit of the line in the pending source of its bank: `Pending1` for
lines 0-31, `Pending2` for 32-63, the basic status for 64-71. -/
def linePending (s : State) (line : Nat) : Prop :=
  match bankOf line with
  | 0 => s.Pending1.val.testBit (line % 32) = true
  | 1 => s.Pending2.val.testBit (line % 32) = true
  | 2 => s.IRQBasic.val.testBit (line % 32) = true

/-- The summary bit of the line's bank in the basic status: bit 8 announces
`Pending1`, bit 9 announces `Pending2`; bank C has none. -/
def bankAnnounced (s : State) (line : Nat) : Prop :=
  match bankOf line with
  | 0 => s.IRQBasic.val.testBit 8 = true
  | 1 => s.IRQBasic.val.testBit 9 = true
  | 2 => True

instance decLineEnabled (s : State) (line : Nat) : Decidable (lineEnabled s line) := by
  unfold lineEnabled
  infer_instance

instance decLinePending (s : State) (line : Nat) : Decidable (linePending s line) := by
  unfold linePending
  split <;> infer_instance

instance decBankAnnounced (s : State) (line : Nat) : Decidable (bankAnnounced s line) := by
  unfold bankAnnounced
  split <;> infer_instance

/-- The handlers leave alone what the dispatcher reads after a handler has run:
the vector table, the `enabled` words and `Pending2`. -/
def KeepsDispatchData (ext : Handlers) : Prop :=
  ∀ a irq p st, (ext a irq p st).g_VectorTable = st.g_VectorTable ∧
    (ext a irq p st).enabled = st.enabled ∧ (ext a irq p st).Pending2 = st.Pending2

/-- The lines one dispatch services, in order, as a function of the pending and
enabled words of the state: bank A if announced, bank B if announced, bank C;
within a bank the set bits of `pending & enabled`, highest first. -/
def dispatchOrder (s : State) : List Nat :=
  (if s.IRQBasic.val &&& (1 <<< 8) ≠ 0 then
      (bitsBelow (s.Pending1.val &&& (s.enabled 0).val) 32).map (fun i => 0 + i) else []) ++
  (if s.IRQBasic.val &&& (1 <<< 9) ≠ 0 then
      (bitsBelow (s.Pending2.val &&& (s.enabled 1).val) 32).map (fun i => 32 + i) else []) ++
  (bitsBelow (s.IRQBasic.val &&& 0xFF &&& (s.enabled 2).val) 8).map (fun i => 64 + i)

/-- Handlers that do nothing. -/
def idleHandlers : Handlers := fun _ _ _ s => s

/-- The state at power-up after `InitInterruptController`: every entry the stub,
nothing enabled, nothing pending, no store made yet, IRQs unmasked. -/
def quietState : State where
  g_VectorTable := fun _ => ⟨.stubHandler, 0⟩
  enabled := fun _ => 0
  IRQBasic := 0
  Pending1 := 0
  Pending2 := 0
  writes := []
  hwEnable := fun _ => 0
  cpsrI := false

/-- Line 40 registered and enabled from `quietState`, then raised by the hardware:
bit 8 of `Pending2` and the summary bit 9 of the basic status. -/
def raisedLine40 : State :=
  { (EnableInterrupt 40 (RegisterInterrupt 40 (.handlerAt 1) 7 quietState).2).2 with
    IRQBasic := 512, Pending2 := 256 }

/-- Line 5 enabled from `quietState`. -/
def line5Enabled : State := (EnableInterrupt 5 quietState).2

/-- Software and hardware enable state agree: every bit set in an `enabled` word is
set in the hardware enable latch of the same bank. -/
def MirrorConsistent (s : State) : Prop :=
  ∀ k : Fin 3, ∀ i, i < 32 →
    (s.enabled k).val.testBit i = true → (s.hwEnable k).val.testBit i = true

instance decMirrorConsistent (s : State) : Decidable (MirrorConsistent s) := by
  unfold MirrorConsistent
  infer_instance

/-- The number of set bits of `x` below position `n`. -/
def popcount (x : Nat) : Nat → Nat
  | 0 => 0
  | n + 1 => (if x.testBit n then 1 else 0) + popcount x n

/-- The states a machine passes through when the given steps run one after the
other from `s`: `s` itself first, the final state last. -/
def runSteps : List (State → State) → State → List State
  | [], s => [s]
  | f :: fs, s => s :: runSteps fs (f s)

/-- The body of a successful `RegisterInterrupt`, statement by statement: mask,
store the handler, store the context, unmask. -/
def registerSteps (irq : Fin BCM2835_INTC_TOTAL_IRQ) (pfnHandler : FN_INTERRUPT_HANDLER)
    (pParam : Nat) : List (State → State) :=
  [irqDisable, writeHandler irq pfnHandler, writeParam irq pParam, irqEnable]

/-- A handler registered on line 70 and the line enabled from `quietState`; the
basic status has low byte `0b01000000` and all of bits 8-31 set, and every bit of
`Pending1` and `Pending2` is set. -/
def raisedLine70 : State :=
  { (EnableInterrupt 70 (RegisterInterrupt 70 (.handlerAt 70) 9 quietState).2).2 with
    IRQBasic := 4294967104, Pending1 := 4294967295, Pending2 := 4294967295 }

/-- Line 37 enabled, its bit set in `Pending2` and the summary bit 9 of the basic
status set. -/
def announcedLine37 : State :=
  { (EnableInterrupt 37 quietState).2 with IRQBasic := 512, Pending2 := 32 }

/-- Line 37 enabled and its bit set in `Pending2`, bit 8 of the basic status set and
bit 9 clear; then the controller is initialised. -/
def unannouncedAfterInit : State :=
  (InitInterruptController
    { (EnableInterrupt 37 quietState).2 with IRQBasic := 256, Pending2 := 32 }).2

/-! ## The bit scan -/

theorem testBit_false_of_lt_pow (x n j : Nat) (hx : x < 2 ^ n) (hj : n ≤ j) :
    x.testBit j = false :=
  Nat.testBit_lt_two_pow (lt_of_lt_of_le hx (Nat.pow_le_pow_right (by decide) hj))

theorem bitsBelow_congr (x y : Nat) :
    ∀ n, (∀ i, i < n → x.testBit i = y.testBit i) → bitsBelow x n = bitsBelow y n := by
  intro n
  induction n with
  | zero => intro _; rfl
  | succ m ih =>
    intro h
    have h1 := ih (fun i hi => h i (by omega))
    simp [bitsBelow, h m (by omega), h1]

theorem mem_bitsBelow (x : Nat) : ∀ n i, i ∈ bitsBelow x n ↔ i < n ∧ x.testBit i = true := by
  intro n
  induction n with
  | zero => intro i; simp [bitsBelow]
  | succ m ih =>
    intro i
    by_cases hm : x.testBit m = true
    · rw [bitsBelow, if_pos hm, List.mem_cons, ih]
      constructor
      · rintro (h | h)
        · subst h; exact ⟨by omega, hm⟩
        · exact ⟨by omega, h.2⟩
      · rintro ⟨h1, h2⟩
        by_cases him : i = m
        · exact Or.inl him
        · exact Or.inr ⟨by omega, h2⟩
    · rw [bitsBelow, if_neg hm, ih]
      constructor
      · rintro ⟨h1, h2⟩; exact ⟨by omega, h2⟩
      · rintro ⟨h1, h2⟩
        have him : i ≠ m := by
          intro h; subst h; exact hm h2
        exact ⟨by omega, h2⟩

theorem bitsBelow_sorted (x : Nat) : ∀ n, (bitsBelow x n).Pairwise (fun a b => b < a) := by
  intro n
  induction n with
  | zero => simp [bitsBelow]
  | succ m ih =>
    by_cases hm : x.testBit m = true
    · rw [bitsBelow, if_pos hm, List.pairwise_cons]
      exact ⟨fun a ha => ((mem_bitsBelow x m a).1 ha).1, ih⟩
    · rw [bitsBelow, if_neg hm]
      exact ih

theorem replay_cons (ext : Handlers) (c : Call) (cs : List Call) (s : State) :
    replay ext (c :: cs) s = replay ext cs (invoke ext c.pfnHandler c.irq c.pParam s) := rfl

theorem callsFromTable_cons (ext : Handlers) (s : State) (c : Call) (cs : List Call)
    (h0 : entryAt s c.irq = some ⟨c.pfnHandler, c.pParam⟩)
    (h1 : CallsFromTable ext (invoke ext c.pfnHandler c.irq c.pParam s) cs) :
    CallsFromTable ext s (c :: cs) := by
  intro pre d post hsplit
  cases pre with
  | nil =>
    simp only [List.nil_append, List.cons.injEq] at hsplit
    obtain ⟨rfl, _⟩ := hsplit
    exact h0
  | cons a pre1 =>
    simp only [List.cons_append, List.cons.injEq] at hsplit
    obtain ⟨rfl, h2⟩ := hsplit
    rw [replay_cons]
    exact h1 pre1 d post h2

/-- The loop as a whole: on a word below `2 ^ n` whose set bits all name lines of
the table, `handleRange` returns, having called the lines of the set bits from the
highest down, each call made through the table as it then stood. -/
theorem handleRange_run (ext : Handlers) (base : Nat) :
    ∀ n, n ≤ 32 → ∀ x s, x < 2 ^ n →
      (∀ i, x.testBit i = true → base + i < BCM2835_INTC_TOTAL_IRQ) →
      ∃ s1 calls, handleRange ext x base s = .ok (s1, calls) ∧
        calls.map Call.irq = (bitsBelow x n).map (fun i => base + i) ∧
        s1 = replay ext calls s ∧ CallsFromTable ext s calls := by
  intro n
  induction n with
  | zero =>
    intro _ x s hx _
    have hx0 : x = 0 := by simpa using hx
    subst hx0
    refine ⟨s, [], ?_, rfl, rfl, ?_⟩
    · rw [handleRange]; simp
    · intro pre c post h; simp at h
  | succ m ih =>
    intro hm x s hx hb
    by_cases hbit : x.testBit m = true
    · have hx0 : x ≠ 0 := by
        intro h; subst h; simp at hbit
      have htop : topBit x = m :=
        topBit_of_top x m (by omega) hbit
          (fun j hj => testBit_false_of_lt_pow x (m + 1) j hx (by omega))
      have hirq : base + m < BCM2835_INTC_TOTAL_IRQ := hb m hbit
      have hclr : clearBit x m < 2 ^ m := by
        apply Nat.lt_pow_two_of_testBit
        intro i hi
        rw [testBit_clearBit x m i (by omega)]
        by_cases him : i = m
        · simp [him]
        · rw [testBit_false_of_lt_pow x (m + 1) i hx (by omega)]; simp
      have hsame : bitsBelow (clearBit x m) m = bitsBelow x m := by
        apply bitsBelow_congr
        intro i hi
        rw [testBit_clearBit x m i (by omega)]
        have h1 : i < 32 := by omega
        have h2 : i ≠ m := by omega
        simp [h1, h2]
      have hsub : ∀ i, (clearBit x m).testBit i = true →
          base + i < BCM2835_INTC_TOTAL_IRQ := by
        intro i hi
        rw [testBit_clearBit x m i (by omega)] at hi
        simp only [Bool.and_eq_true] at hi
        exact hb i hi.1.1
      obtain ⟨s2, calls, hrun, hirqs, hst, htab⟩ :=
        ih (by omega) (clearBit x m)
          (invoke ext (s.g_VectorTable ⟨base + m, hirq⟩).pfnHandler (base + m)
            (s.g_VectorTable ⟨base + m, hirq⟩).pParam s) hclr hsub
      refine ⟨s2, ⟨(s.g_VectorTable ⟨base + m, hirq⟩).pfnHandler, base + m,
        (s.g_VectorTable ⟨base + m, hirq⟩).pParam⟩ :: calls, ?_, ?_, ?_, ?_⟩
      · rw [handleRange]
        simp only [hx0, dite_false, htop, hirq, dite_true, hrun]
      · simp [bitsBelow, hbit, hirqs, hsame]
      · rw [replay_cons]; exact hst
      · apply callsFromTable_cons
        · simp [entryAt, hirq]
        · exact htab
    · have hx1 : x < 2 ^ m := by
        apply Nat.lt_pow_two_of_testBit
        intro i hi
        by_cases him : i = m
        · subst him; simpa using hbit
        · exact testBit_false_of_lt_pow x (m + 1) i hx (by omega)
      obtain ⟨s2, calls, hrun, hirqs, hst, htab⟩ := ih (by omega) x s hx1 hb
      refine ⟨s2, calls, hrun, ?_, hst, htab⟩
      simp [bitsBelow, hbit, hirqs]

theorem bitsBelow_map_sorted (x base n : Nat) :
    ((bitsBelow x n).map (fun i => base + i)).Pairwise (fun a b => b < a) := by
  rw [List.pairwise_map]
  exact (bitsBelow_sorted x n).imp (fun h => by omega)

theorem mem_bitsBelow_map (x base n l : Nat) (hx : x < 2 ^ n) :
    l ∈ (bitsBelow x n).map (fun i => base + i) ↔ ∃ i, l = base + i ∧ x.testBit i = true := by
  simp only [List.mem_map, mem_bitsBelow]
  constructor
  · rintro ⟨i, ⟨_, h2⟩, h3⟩
    exact ⟨i, h3.symm, h2⟩
  · rintro ⟨i, h1, h2⟩
    refine ⟨i, ⟨?_, h2⟩, h1.symm⟩
    by_contra hge
    rw [testBit_false_of_lt_pow x n i hx (by omega)] at h2
    exact Bool.noConfusion h2

theorem count_one_of_sorted (l : List Nat) (a : Nat) (hs : l.Pairwise (fun a b => b < a))
    (ha : a ∈ l) : l.count a = 1 := by
  have hnd : l.Nodup := hs.imp (fun h => by omega)
  exact List.count_eq_one_of_mem hnd ha

/-- The loop, in terms of lines: it returns, the lines it calls are exactly
`base + i` for the set bits `i`, each once, in descending order. -/
theorem handleRange_lines (ext : Handlers) (base n : Nat) (hn : n ≤ 32) (x : Nat) (s : State)
    (hx : x < 2 ^ n) (hb : ∀ i, x.testBit i = true → base + i < BCM2835_INTC_TOTAL_IRQ) :
    ∃ s1 calls, handleRange ext x base s = .ok (s1, calls) ∧
      s1 = replay ext calls s ∧ CallsFromTable ext s calls ∧
      calls.map Call.irq = (bitsBelow x n).map (fun i => base + i) ∧
      (calls.map Call.irq).Pairwise (fun a b => b < a) ∧
      (∀ l, l ∈ calls.map Call.irq ↔ ∃ i, l = base + i ∧ x.testBit i = true) ∧
      (∀ i, x.testBit i = true → (calls.map Call.irq).count (base + i) = 1) := by
  obtain ⟨s1, calls, hrun, hirqs, hst, htab⟩ := handleRange_run ext base n hn x s hx hb
  have hsorted : (calls.map Call.irq).Pairwise (fun a b => b < a) := by
    rw [hirqs]; exact bitsBelow_map_sorted x base n
  have hmem : ∀ l, l ∈ calls.map Call.irq ↔ ∃ i, l = base + i ∧ x.testBit i = true := by
    intro l; rw [hirqs]; exact mem_bitsBelow_map x base n l hx
  refine ⟨s1, calls, hrun, hst, htab, hirqs, hsorted, hmem, ?_⟩
  intro i hi
  exact count_one_of_sorted _ _ hsorted ((hmem _).2 ⟨i, rfl, hi⟩)

theorem callsFromTable_nil (ext : Handlers) (s : State) : CallsFromTable ext s [] := by
  intro pre c post h
  simp at h

theorem testBit_lt_of_lt_pow (x n i : Nat) (hx : x < 2 ^ n) (hi : x.testBit i = true) : i < n := by
  by_contra hge
  rw [testBit_false_of_lt_pow x n i hx (by omega)] at hi
  exact Bool.noConfusion hi

/-- A bank of `irqHandler`: the guarded call of `handleRange`. -/
theorem guarded_handleRange (ext : Handlers) (g : Prop) [Decidable g] (base n : Nat)
    (hn : n ≤ 32) (x : Nat) (s : State) (hx : x < 2 ^ n)
    (hb : ∀ i, x.testBit i = true → base + i < BCM2835_INTC_TOTAL_IRQ) :
    ∃ s1 calls, (if g then handleRange ext x base s else .ok (s, [])) = .ok (s1, calls) ∧
      s1 = replay ext calls s ∧ CallsFromTable ext s calls ∧
      calls.map Call.irq = (if g then (bitsBelow x n).map (fun i => base + i) else []) := by
  by_cases hg : g
  · obtain ⟨s1, calls, hrun, hirqs, hst, htab⟩ := handleRange_run ext base n hn x s hx hb
    exact ⟨s1, calls, by simp [hg, hrun], hst, htab, by simp [hg, hirqs]⟩
  · exact ⟨s, [], by simp [hg], rfl, callsFromTable_nil ext s, by simp [hg]⟩

theorem bitsBelow_zero (n : Nat) : bitsBelow 0 n = [] := by
  induction n with
  | zero => rfl
  | succ m ih => simp [bitsBelow, ih]

theorem bankC_word_lt (status e : Nat) : status &&& 0xFF &&& e < 2 ^ 8 := by
  have h1 : status &&& 0xFF < 2 ^ 8 := Nat.and_lt_two_pow status (by decide)
  exact lt_of_le_of_lt Nat.and_le_left h1

/-- The dispatcher as a whole: `irqHandler` always returns; its calls are those of
bank A, then bank B, then bank C; each bank calls the lines of the set bits of its
masked pending word, highest first, through the table as it then stands. -/
theorem irqHandler_run (ext : Handlers) (s : State) :
    ∃ s1 s2 s3 cA cB cC,
      irqHandler ext s = .ok (s3, cA ++ cB ++ cC) ∧
      s1 = replay ext cA s ∧ s2 = replay ext cB s1 ∧ s3 = replay ext cC s2 ∧
      CallsFromTable ext s cA ∧ CallsFromTable ext s1 cB ∧ CallsFromTable ext s2 cC ∧
      cA.map Call.irq =
        (if s.IRQBasic.val &&& (1 <<< 8) ≠ 0 then
          (bitsBelow (s.Pending1.val &&& (s.enabled 0).val) 32).map (fun i => 0 + i) else []) ∧
      cB.map Call.irq =
        (if s.IRQBasic.val &&& (1 <<< 9) ≠ 0 then
          (bitsBelow (s1.Pending2.val &&& (s1.enabled 1).val) 32).map (fun i => 32 + i) else []) ∧
      cC.map Call.irq =
        (bitsBelow (s.IRQBasic.val &&& 0xFF &&& (s2.enabled 2).val) 8).map (fun i => 64 + i) := by
  have hA32 : s.Pending1.val &&& (s.enabled 0).val < 2 ^ 32 :=
    lt_of_le_of_lt Nat.and_le_left s.Pending1.isLt
  obtain ⟨s1, cA, hrunA, hstA, htabA, hirqA⟩ :=
    guarded_handleRange ext (s.IRQBasic.val &&& (1 <<< 8) ≠ 0) 0 32 (le_refl _)
      (s.Pending1.val &&& (s.enabled 0).val) s hA32
      (fun i hi => by
        have := testBit_lt_of_lt_pow _ 32 i hA32 hi
        show 0 + i < 72
        omega)
  have hB32 : s1.Pending2.val &&& (s1.enabled 1).val < 2 ^ 32 :=
    lt_of_le_of_lt Nat.and_le_left s1.Pending2.isLt
  obtain ⟨s2, cB, hrunB, hstB, htabB, hirqB⟩ :=
    guarded_handleRange ext (s.IRQBasic.val &&& (1 <<< 9) ≠ 0) 32 32 (le_refl _)
      (s1.Pending2.val &&& (s1.enabled 1).val) s1 hB32
      (fun i hi => by
        have := testBit_lt_of_lt_pow _ 32 i hB32 hi
        show 32 + i < 72
        omega)
  have hC8 := bankC_word_lt s.IRQBasic.val ((s2.enabled 2).val)
  obtain ⟨s3, cC, hrunC, hstC, htabC, hirqC⟩ :=
    guarded_handleRange ext (s.IRQBasic.val &&& 0xFF ≠ 0) 64 8 (by decide)
      (s.IRQBasic.val &&& 0xFF &&& (s2.enabled 2).val) s2 hC8
      (fun i hi => by
        have := testBit_lt_of_lt_pow _ 8 i hC8 hi
        show 64 + i < 72
        omega)
  refine ⟨s1, s2, s3, cA, cB, cC, ?_, hstA, hstB, hstC, htabA, htabB, htabC, hirqA, hirqB, ?_⟩
  · unfold irqHandler
    simp only [hrunA, hrunB, hrunC]
  · rw [hirqC]
    by_cases hg : s.IRQBasic.val &&& 0xFF ≠ 0
    · simp [hg]
    · have h0 : s.IRQBasic.val &&& 0xFF = 0 := by
        by_contra h; exact hg h
      rw [if_neg hg, h0, Nat.zero_and, bitsBelow_zero]
      rfl

/-! ## C1: every pending and enabled line of a bank is serviced exactly once -/

/-- C1: for every 32-bit pending value `p`, every enabled value `e` and every bank
base `b` in 0, 32, 64, `handleRange` run on `(p & e, b)` returns, calls line `b + i`
exactly once for each bit `i` set in both `p` and `e`, calls no other line, and
makes every call through the vector-table entry of its line.  At base 64 the
pending word is the low byte of the basic status, so `p & e` is below 256: those are
the words `irqHandler` passes, and the only ones on which the C code is defined. -/
theorem handleRange_services_each_line_once (ext : Handlers) (s : State) (p e b : Nat)
    (hp : p < 2 ^ 32) (hb : b = 0 ∨ b = 32 ∨ (b = 64 ∧ p &&& e < 2 ^ 8)) :
    ∃ s1 calls, handleRange ext (p &&& e) b s = .ok (s1, calls) ∧
      (∀ i, p.testBit i = true → e.testBit i = true →
        (calls.map Call.irq).count (b + i) = 1) ∧
      (∀ c ∈ calls, ∃ i, c.irq = b + i ∧ p.testBit i = true ∧ e.testBit i = true) ∧
      CallsFromTable ext s calls := by
  have hpe : p &&& e < 2 ^ 32 := lt_of_le_of_lt Nat.and_le_left hp
  have key : ∃ n, n ≤ 32 ∧ p &&& e < 2 ^ n ∧
      ∀ i, (p &&& e).testBit i = true → b + i < BCM2835_INTC_TOTAL_IRQ := by
    rcases hb with h | h | ⟨h, h8⟩
    · refine ⟨32, le_refl _, hpe, fun i hi => ?_⟩
      have : i < 32 := by
        by_contra hge
        rw [testBit_false_of_lt_pow _ 32 i hpe (by omega)] at hi
        exact Bool.noConfusion hi
      show b + i < 72
      omega
    · refine ⟨32, le_refl _, hpe, fun i hi => ?_⟩
      have : i < 32 := by
        by_contra hge
        rw [testBit_false_of_lt_pow _ 32 i hpe (by omega)] at hi
        exact Bool.noConfusion hi
      show b + i < 72
      omega
    · refine ⟨8, by decide, h8, fun i hi => ?_⟩
      have : i < 8 := by
        by_contra hge
        rw [testBit_false_of_lt_pow _ 8 i h8 (by omega)] at hi
        exact Bool.noConfusion hi
      show b + i < 72
      omega
  obtain ⟨n, hn, hx, hrange⟩ := key
  obtain ⟨s1, calls, hrun, _, htab, _, _, hmem, hcount⟩ :=
    handleRange_lines ext b n hn (p &&& e) s hx hrange
  refine ⟨s1, calls, hrun, ?_, ?_, htab⟩
  · intro i h1 h2
    exact hcount i (by rw [Nat.testBit_and, h1, h2]; rfl)
  · intro c hc
    obtain ⟨i, h1, h2⟩ := (hmem c.irq).1 (List.mem_map_of_mem Call.irq hc)
    rw [Nat.testBit_and, Bool.and_eq_true] at h2
    exact ⟨i, h1, h2.1, h2.2⟩

/-- C1 at bank C with pending low byte `0b11000000` and every bit of the enabled
word set except bit 7: only line 70 is called. -/
theorem handleRange_services_each_line_once_witness :
    ∃ s1 calls, handleRange idleHandlers (192 &&& 4294967167) 64 quietState = .ok (s1, calls) ∧
      (∀ i, (192 : Nat).testBit i = true → (4294967167 : Nat).testBit i = true →
        (calls.map Call.irq).count (64 + i) = 1) ∧
      (∀ c ∈ calls, ∃ i, c.irq = 64 + i ∧ (192 : Nat).testBit i = true ∧
        (4294967167 : Nat).testBit i = true) ∧
      CallsFromTable idleHandlers quietState calls :=
  handleRange_services_each_line_once idleHandlers quietState 192 4294967167 64 (by decide)
    (Or.inr (Or.inr ⟨rfl, by decide⟩))

/-! ## C2: the scan order is descending -/

/-- C2: for every 32-bit pending value whose set bits name lines of the table,
`handleRange` returns and the lines it calls are exactly the lines of the set bits
in strictly descending order, the line of the highest set bit first, whatever the
handlers do; and in one `irqHandler` call with bits 3, 7, 15 pending and enabled in
bank A the first calls are lines 15, 7, 3 in that order, every later call belonging
to another bank. -/
theorem handleRange_descending (ext : Handlers) (s : State) (pending base : Nat)
    (hp : pending < 2 ^ 32)
    (hb : ∀ i, pending.testBit i = true → base + i < BCM2835_INTC_TOTAL_IRQ) :
    (∃ s1 calls, handleRange ext pending base s = .ok (s1, calls) ∧
      (calls.map Call.irq).Pairwise (fun a b => b < a) ∧
      (∀ l, l ∈ calls.map Call.irq ↔ ∃ i, l = base + i ∧ pending.testBit i = true) ∧
      (∀ first ∈ (calls.map Call.irq).head?, ∀ i, pending.testBit i = true →
        base + i ≤ first)) ∧
    (∀ st : State, st.IRQBasic.val &&& (1 <<< 8) ≠ 0 →
      st.Pending1.val &&& (st.enabled 0).val = 2 ^ 15 + 2 ^ 7 + 2 ^ 3 →
      ∃ s1 calls rest, irqHandler ext st = .ok (s1, calls) ∧
        calls.map Call.irq = [15, 7, 3] ++ rest ∧ ∀ l ∈ rest, 32 ≤ l) := by
  constructor
  · obtain ⟨s1, calls, hrun, _, _, _, hsorted, hmem, _⟩ :=
      handleRange_lines ext base 32 (le_refl _) pending s hp hb
    refine ⟨s1, calls, hrun, hsorted, hmem, ?_⟩
    intro first hfirst i hi
    have hin : base + i ∈ calls.map Call.irq := (hmem _).2 ⟨i, rfl, hi⟩
    cases hl : calls.map Call.irq with
    | nil => rw [hl] at hin; simp at hin
    | cons a t =>
      rw [hl] at hfirst hin hsorted
      simp only [List.head?_cons, Option.mem_def, Option.some.injEq] at hfirst
      subst hfirst
      rw [List.mem_cons] at hin
      rcases hin with h | h
      · omega
      · exact Nat.le_of_lt ((List.pairwise_cons.1 hsorted).1 _ h)
  · intro st h8 hbits
    obtain ⟨s1, s2, s3, cA, cB, cC, hrun, _, _, _, _, _, _, hA, hB, hC⟩ := irqHandler_run ext st
    refine ⟨s3, cA ++ cB ++ cC, cB.map Call.irq ++ cC.map Call.irq, hrun, ?_, ?_⟩
    · rw [List.map_append, List.map_append, hA, if_pos h8, hbits, List.append_assoc]
      rfl
    · intro l hl
      rw [List.mem_append] at hl
      rcases hl with h | h
      · rw [hB] at h
        by_cases h9 : st.IRQBasic.val &&& (1 <<< 9) ≠ 0
        · rw [if_pos h9, List.mem_map] at h
          obtain ⟨i, _, rfl⟩ := h
          omega
        · rw [if_neg h9] at h
          simp at h
      · rw [hC, List.mem_map] at h
        obtain ⟨i, _, rfl⟩ := h
        omega

/-- C2 at bank B with bits 3, 7 and 15 pending. -/
theorem handleRange_descending_witness :
    (∃ s1 calls, handleRange idleHandlers 32904 32 quietState = .ok (s1, calls) ∧
      (calls.map Call.irq).Pairwise (fun a b => b < a) ∧
      (∀ l, l ∈ calls.map Call.irq ↔ ∃ i, l = 32 + i ∧ (32904 : Nat).testBit i = true) ∧
      (∀ first ∈ (calls.map Call.irq).head?, ∀ i, (32904 : Nat).testBit i = true →
        32 + i ≤ first)) ∧
    (∀ st : State, st.IRQBasic.val &&& (1 <<< 8) ≠ 0 →
      st.Pending1.val &&& (st.enabled 0).val = 2 ^ 15 + 2 ^ 7 + 2 ^ 3 →
      ∃ s1 calls rest, irqHandler idleHandlers st = .ok (s1, calls) ∧
        calls.map Call.irq = [15, 7, 3] ++ rest ∧ ∀ l ∈ rest, 32 ≤ l) :=
  handleRange_descending idleHandlers quietState 32904 32 (by decide)
    (fun i hi => by
      have := testBit_lt_of_lt_pow 32904 16 i (by decide) hi
      show 32 + i < 72
      omega)

/-! ## C3: a line that is not enabled is never dispatched -/

theorem replay_enabled (ext : Handlers)
    (hkeep : ∀ a irq p st, (ext a irq p st).enabled = st.enabled) (calls : List Call) :
    ∀ s, (replay ext calls s).enabled = s.enabled := by
  induction calls with
  | nil => intro s; rfl
  | cons c cs ih =>
    intro s
    rw [replay_cons, ih]
    cases hf : c.pfnHandler with
    | stubHandler => rfl
    | handlerAt a => exact hkeep a c.irq c.pParam s

theorem bankOf_val (l : Nat) (hl : l < BCM2835_INTC_TOTAL_IRQ) : (bankOf l).val = l / 32 := by
  have hl72 : l < 72 := hl
  unfold bankOf
  by_cases h1 : l ≤ 31
  · rw [if_pos h1]
    show 0 = l / 32
    omega
  · by_cases h2 : l ≤ 63
    · rw [if_neg h1, if_pos h2]
      show 1 = l / 32
      omega
    · rw [if_neg h1, if_neg h2]
      show 2 = l / 32
      omega

theorem bank_lines (x base n : Nat) (e : Nat)
    (hxe : ∀ i, x.testBit i = true → e.testBit i = true) (l : Nat)
    (hl : l ∈ (bitsBelow x n).map (fun i => base + i)) :
    base ≤ l ∧ l < base + n ∧ e.testBit (l - base) = true := by
  rw [List.mem_map] at hl
  obtain ⟨i, hi, rfl⟩ := hl
  rw [mem_bitsBelow] at hi
  refine ⟨by omega, by omega, ?_⟩
  rw [Nat.add_sub_cancel_left]
  exact hxe i hi.2

theorem testBit_and_right (a e i : Nat) (h : (a &&& e).testBit i = true) : e.testBit i = true := by
  rw [Nat.testBit_and, Bool.and_eq_true] at h
  exact h.2

/-- C3: `irqHandler` returns, and every call it makes, bank by bank, is for a line
whose bit is set in the `enabled` word of its bank as that word stood when the
bank was reached (for bank A: at entry); hence, handlers not writing `enabled`,
every line called has bit `line mod 32` set in `enabled[line / 32]` of the state
the dispatcher was entered in, whatever the pending registers hold. -/
theorem irqHandler_calls_only_enabled (ext : Handlers) (s : State) :
    ∃ s1 s2 s3 cA cB cC,
      irqHandler ext s = .ok (s3, cA ++ cB ++ cC) ∧
      s1 = replay ext cA s ∧ s2 = replay ext cB s1 ∧
      (∀ c ∈ cA, bankOf c.irq = 0 ∧ ((s.enabled 0).val).testBit (c.irq % 32) = true) ∧
      (∀ c ∈ cB, bankOf c.irq = 1 ∧ ((s1.enabled 1).val).testBit (c.irq % 32) = true) ∧
      (∀ c ∈ cC, bankOf c.irq = 2 ∧ ((s2.enabled 2).val).testBit (c.irq % 32) = true) ∧
      ((∀ a irq p st, (ext a irq p st).enabled = st.enabled) →
        ∀ c ∈ cA ++ cB ++ cC, c.irq < BCM2835_INTC_TOTAL_IRQ ∧
          (bankOf c.irq).val = c.irq / 32 ∧
          (s.enabled (bankOf c.irq)).val.testBit (c.irq % 32) = true) := by
  obtain ⟨s1, s2, s3, cA, cB, cC, hrun, h1, h2, _, _, _, _, hA, hB, hC⟩ := irqHandler_run ext s
  have hA32 : s.Pending1.val &&& (s.enabled 0).val < 2 ^ 32 :=
    lt_of_le_of_lt Nat.and_le_left s.Pending1.isLt
  have hB32 : s1.Pending2.val &&& (s1.enabled 1).val < 2 ^ 32 :=
    lt_of_le_of_lt Nat.and_le_left s1.Pending2.isLt
  have hC8 := bankC_word_lt s.IRQBasic.val ((s2.enabled 2).val)
  have factA : ∀ c ∈ cA, c.irq < 32 ∧ ((s.enabled 0).val).testBit (c.irq % 32) = true := by
    intro c hc
    have hm := List.mem_map_of_mem Call.irq hc
    rw [hA] at hm
    by_cases hg : s.IRQBasic.val &&& (1 <<< 8) ≠ 0
    · rw [if_pos hg] at hm
      obtain ⟨_, hlt, hbit⟩ := bank_lines _ 0 32 ((s.enabled 0).val)
        (fun i hi => testBit_and_right _ _ i hi) c.irq hm
      have hmod : c.irq % 32 = c.irq - 0 := by omega
      exact ⟨by omega, by rw [hmod]; exact hbit⟩
    · rw [if_neg hg] at hm
      simp at hm
  have factB : ∀ c ∈ cB, 32 ≤ c.irq ∧ c.irq < 64 ∧
      ((s1.enabled 1).val).testBit (c.irq % 32) = true := by
    intro c hc
    have hm := List.mem_map_of_mem Call.irq hc
    rw [hB] at hm
    by_cases hg : s.IRQBasic.val &&& (1 <<< 9) ≠ 0
    · rw [if_pos hg] at hm
      obtain ⟨hge, hlt, hbit⟩ := bank_lines _ 32 32 ((s1.enabled 1).val)
        (fun i hi => testBit_and_right _ _ i hi) c.irq hm
      have hmod : c.irq % 32 = c.irq - 32 := by omega
      exact ⟨hge, by omega, by rw [hmod]; exact hbit⟩
    · rw [if_neg hg] at hm
      simp at hm
  have factC : ∀ c ∈ cC, 64 ≤ c.irq ∧ c.irq < 72 ∧
      ((s2.enabled 2).val).testBit (c.irq % 32) = true := by
    intro c hc
    have hm := List.mem_map_of_mem Call.irq hc
    rw [hC] at hm
    obtain ⟨hge, hlt, hbit⟩ := bank_lines _ 64 8 ((s2.enabled 2).val)
      (fun i hi => testBit_and_right _ _ i hi) c.irq hm
    have hmod : c.irq % 32 = c.irq - 64 := by omega
    exact ⟨hge, by omega, by rw [hmod]; exact hbit⟩
  have bank0 : ∀ l, l < 32 → bankOf l = 0 := by
    intro l hl
    unfold bankOf
    rw [if_pos (by omega)]
  have bank1 : ∀ l, 32 ≤ l → l < 64 → bankOf l = 1 := by
    intro l h1 h2
    unfold bankOf
    rw [if_neg (by omega), if_pos (by omega)]
  have bank2 : ∀ l, 64 ≤ l → bankOf l = 2 := by
    intro l h1
    unfold bankOf
    rw [if_neg (by omega), if_neg (by omega)]
  refine ⟨s1, s2, s3, cA, cB, cC, hrun, h1, h2, ?_, ?_, ?_, ?_⟩
  · intro c hc
    exact ⟨bank0 _ (factA c hc).1, (factA c hc).2⟩
  · intro c hc
    exact ⟨bank1 _ (factB c hc).1 (factB c hc).2.1, (factB c hc).2.2⟩
  · intro c hc
    exact ⟨bank2 _ (factC c hc).1, (factC c hc).2.2⟩
  · intro hkeep c hc
    have e1 : s1.enabled = s.enabled := by rw [h1]; exact replay_enabled ext hkeep cA s
    have e2 : s2.enabled = s.enabled := by
      rw [h2, replay_enabled ext hkeep cB s1]; exact e1
    rw [List.mem_append, List.mem_append] at hc
    rcases hc with (hc | hc) | hc
    · obtain ⟨hlt, hbit⟩ := factA c hc
      have hlt72 : c.irq < BCM2835_INTC_TOTAL_IRQ := by show c.irq < 72; omega
      refine ⟨hlt72, bankOf_val _ hlt72, ?_⟩
      rw [bank0 _ hlt]; exact hbit
    · obtain ⟨hge, hlt, hbit⟩ := factB c hc
      have hlt72 : c.irq < BCM2835_INTC_TOTAL_IRQ := by show c.irq < 72; omega
      refine ⟨hlt72, bankOf_val _ hlt72, ?_⟩
      rw [bank1 _ hge hlt, ← e1]; exact hbit
    · obtain ⟨hge, hlt, hbit⟩ := factC c hc
      have hlt72 : c.irq < BCM2835_INTC_TOTAL_IRQ := hlt
      refine ⟨hlt72, bankOf_val _ hlt72, ?_⟩
      rw [bank2 _ hge, ← e2]; exact hbit

/-! ## Dispatch with handlers that keep the dispatch data -/

theorem invoke_keeps (ext : Handlers) (hk : KeepsDispatchData ext) (f : FN_INTERRUPT_HANDLER)
    (irq p : Nat) (s : State) :
    (invoke ext f irq p s).g_VectorTable = s.g_VectorTable ∧
      (invoke ext f irq p s).enabled = s.enabled ∧
      (invoke ext f irq p s).Pending2 = s.Pending2 := by
  cases f with
  | stubHandler => exact ⟨rfl, rfl, rfl⟩
  | handlerAt a => exact hk a irq p s

theorem replay_keeps (ext : Handlers) (hk : KeepsDispatchData ext) (calls : List Call) :
    ∀ s, (replay ext calls s).g_VectorTable = s.g_VectorTable ∧
      (replay ext calls s).enabled = s.enabled ∧
      (replay ext calls s).Pending2 = s.Pending2 := by
  induction calls with
  | nil => intro s; exact ⟨rfl, rfl, rfl⟩
  | cons c cs ih =>
    intro s
    rw [replay_cons]
    obtain ⟨h1, h2, h3⟩ := ih (invoke ext c.pfnHandler c.irq c.pParam s)
    obtain ⟨k1, k2, k3⟩ := invoke_keeps ext hk c.pfnHandler c.irq c.pParam s
    exact ⟨h1.trans k1, h2.trans k2, h3.trans k3⟩

theorem entryAt_congr (s t : State) (h : s.g_VectorTable = t.g_VectorTable) (irq : Nat) :
    entryAt s irq = entryAt t irq := by
  unfold entryAt
  rw [h]

theorem callsFromTable_keeps (ext : Handlers) (hk : KeepsDispatchData ext) (s : State)
    (calls : List Call) (h : CallsFromTable ext s calls) :
    ∀ c ∈ calls, entryAt s c.irq = some ⟨c.pfnHandler, c.pParam⟩ := by
  intro c hc
  obtain ⟨pre, post, hsplit⟩ := List.append_of_mem hc
  rw [← h pre c post hsplit]
  exact (entryAt_congr _ _ (replay_keeps ext hk pre s).1 c.irq).symm

/-- With handlers that keep the dispatch data, one dispatch calls the lines of
`dispatchOrder`, in that order, each through its vector-table entry at entry. -/
theorem irqHandler_of_keeps (ext : Handlers) (hk : KeepsDispatchData ext) (s : State) :
    ∃ s1 calls, irqHandler ext s = .ok (s1, calls) ∧ s1 = replay ext calls s ∧
      calls.map Call.irq = dispatchOrder s ∧
      ∀ c ∈ calls, entryAt s c.irq = some ⟨c.pfnHandler, c.pParam⟩ := by
  obtain ⟨s1, s2, s3, cA, cB, cC, hrun, h1, h2, h3, tA, tB, tC, hA, hB, hC⟩ :=
    irqHandler_run ext s
  obtain ⟨a1, a2, a3⟩ := replay_keeps ext hk cA s
  obtain ⟨b1, b2, b3⟩ := replay_keeps ext hk cB s1
  rw [← h1] at a1 a2 a3
  rw [← h2] at b1 b2 b3
  refine ⟨s3, cA ++ cB ++ cC, hrun, ?_, ?_, ?_⟩
  · rw [h3, h2, h1]
    simp [replay, List.foldl_append]
  · rw [List.map_append, List.map_append, hA, hB, hC, a2, a3, b2, a2]
    rfl
  · intro c hc
    rw [List.mem_append, List.mem_append] at hc
    rcases hc with (hc | hc) | hc
    · exact callsFromTable_keeps ext hk s cA tA c hc
    · rw [entryAt_congr s s1 a1.symm]
      exact callsFromTable_keeps ext hk s1 cB tB c hc
    · rw [entryAt_congr s s2 (b1.trans a1).symm]
      exact callsFromTable_keeps ext hk s2 cC tC c hc

theorem and_shift_ne_zero (x k : Nat) (h : x.testBit k = true) : x &&& (1 <<< k) ≠ 0 := by
  intro h0
  have h1 : (x &&& (1 <<< k)).testBit k = true := by
    rw [Nat.testBit_and, h, Nat.one_shiftLeft, Nat.testBit_two_pow_self]
    rfl
  rw [h0] at h1
  simp at h1

theorem dispatchOrder_nodup (s : State) : (dispatchOrder s).Nodup := by
  have nd : ∀ x base n, ((bitsBelow x n).map (fun i => base + i)).Nodup := fun x base n =>
    (bitsBelow_map_sorted x base n).imp (fun h => by omega)
  have rng : ∀ x base n l, l ∈ (bitsBelow x n).map (fun i => base + i) →
      base ≤ l ∧ l < base + n := by
    intro x base n l hl
    rw [List.mem_map] at hl
    obtain ⟨i, hi, rfl⟩ := hl
    rw [mem_bitsBelow] at hi
    omega
  unfold dispatchOrder
  refine List.Nodup.append (List.Nodup.append ?_ ?_ ?_) (nd _ _ _) ?_
  · split
    · exact nd _ _ _
    · exact List.nodup_nil
  · split
    · exact nd _ _ _
    · exact List.nodup_nil
  · intro l hA hB
    split at hA
    · split at hB
      · have := rng _ _ _ l hA
        have := rng _ _ _ l hB
        omega
      · simp at hB
    · simp at hA
  · intro l hAB hC
    have hc := rng _ _ _ l hC
    rw [List.mem_append] at hAB
    rcases hAB with h | h
    · split at h
      · have := rng _ _ _ l h
        omega
      · simp at h
    · split at h
      · have := rng _ _ _ l h
        omega
      · simp at h

theorem mem_dispatchOrder (s : State) (line : Nat) (hline : line < BCM2835_INTC_TOTAL_IRQ)
    (hen : lineEnabled s line) (hpend : linePending s line) (hsum : bankAnnounced s line) :
    line ∈ dispatchOrder s := by
  have h72 : line < 72 := hline
  unfold lineEnabled at hen
  unfold linePending at hpend
  unfold bankAnnounced at hsum
  unfold dispatchOrder
  by_cases h1 : line ≤ 31
  · have hb : bankOf line = 0 := by unfold bankOf; rw [if_pos h1]
    rw [hb] at hen hpend hsum
    have hmod : line % 32 = line := by omega
    rw [hmod] at hen hpend
    apply List.mem_append_left
    apply List.mem_append_left
    rw [if_pos (and_shift_ne_zero _ 8 hsum), List.mem_map]
    refine ⟨line, (mem_bitsBelow _ _ _).2 ⟨by omega, ?_⟩, by omega⟩
    rw [Nat.testBit_and, hen, hpend]; rfl
  · by_cases h2 : line ≤ 63
    · have hb : bankOf line = 1 := by unfold bankOf; rw [if_neg h1, if_pos h2]
      rw [hb] at hen hpend hsum
      apply List.mem_append_left
      apply List.mem_append_right
      rw [if_pos (and_shift_ne_zero _ 9 hsum), List.mem_map]
      refine ⟨line % 32, (mem_bitsBelow _ _ _).2 ⟨by omega, ?_⟩, by omega⟩
      rw [Nat.testBit_and, hen, hpend]; rfl
    · have hb : bankOf line = 2 := by unfold bankOf; rw [if_neg h1, if_neg h2]
      rw [hb] at hen hpend hsum
      apply List.mem_append_right
      rw [List.mem_map]
      refine ⟨line % 32, (mem_bitsBelow _ _ _).2 ⟨by omega, ?_⟩, by omega⟩
      have hff : (255 : Nat) = 2 ^ 8 - 1 := by decide
      rw [Nat.testBit_and, Nat.testBit_and, hen, hpend, hff, Nat.testBit_two_pow_sub_one]
      have : line % 32 < 8 := by omega
      simp [this]

theorem count_call_eq_count_line (calls : List Call) (line : Nat) (c0 : Call)
    (h0 : c0.irq = line) (hsame : ∀ c ∈ calls, c.irq = line → c = c0) :
    calls.count c0 = (calls.map Call.irq).count line := by
  rw [List.count, List.count, List.countP_map]
  apply List.countP_congr
  intro c hc
  simp only [beq_iff_eq, Function.comp]
  constructor
  · intro h1; rw [h1]; exact h0
  · intro h1; exact hsame c hc h1

theorem RegisterInterrupt_entry (line : Nat) (h : FN_INTERRUPT_HANDLER) (ctx : Nat) (s0 : State)
    (hline : line < BCM2835_INTC_TOTAL_IRQ) :
    (RegisterInterrupt line h ctx s0).1 = 0 ∧
      entryAt (RegisterInterrupt line h ctx s0).2 line = some ⟨h, ctx⟩ := by
  have hge : ¬ line ≥ BCM2835_INTC_TOTAL_IRQ := Nat.not_le.mpr hline
  unfold RegisterInterrupt
  rw [dif_neg hge]
  refine ⟨rfl, ?_⟩
  simp [entryAt, hline, irqEnable, writeParam, writeHandler, irqDisable]

/-! ## C5: lines outside [0,72) are rejected without effect -/

/-- C5: for every line of 72 or more, `RegisterInterrupt`, `EnableInterrupt` and
`DisableInterrupt` each return -1 and leave the whole state as it was: vector
table, `enabled`, the register block (no store made, enable latches as before) and
the CPSR interrupt mask. -/
theorem out_of_range_line_rejected (line : Nat) (h : FN_INTERRUPT_HANDLER) (ctx : Nat)
    (s : State) (hline : BCM2835_INTC_TOTAL_IRQ ≤ line) :
    RegisterInterrupt line h ctx s = (-1, s) ∧
      EnableInterrupt line s = (-1, s) ∧ DisableInterrupt line s = (-1, s) := by
  have h72 : 72 ≤ line := hline
  have h1 : ¬ line ≤ 31 := by omega
  have h2 : ¬ line ≤ 63 := by omega
  have h3 : ¬ line < BCM2835_INTC_TOTAL_IRQ := Nat.not_lt.mpr hline
  refine ⟨?_, ?_, ?_⟩
  · unfold RegisterInterrupt
    rw [dif_pos hline]
  · unfold EnableInterrupt
    simp only [h1, h2, h3, if_false]
  · unfold DisableInterrupt
    simp only [h1, h2, h3, if_false]

/-- C5 at line 72, the first line outside the table. -/
theorem out_of_range_line_rejected_witness :
    RegisterInterrupt 72 (.handlerAt 1) 7 raisedLine40 = (-1, raisedLine40) ∧
      EnableInterrupt 72 raisedLine40 = (-1, raisedLine40) ∧
      DisableInterrupt 72 raisedLine40 = (-1, raisedLine40) :=
  out_of_range_line_rejected 72 (.handlerAt 1) 7 raisedLine40 (by decide)

/-! ## C6, C7: what enabling and disabling a line change -/

theorem w32_val_of_lt (n : Nat) (h : n < 2 ^ 32) : (w32 n).val = n :=
  Nat.mod_eq_of_lt h

theorem mask_lt (b : Nat) (hb : b < 32) : 1 <<< b < 2 ^ 32 := by
  rw [Nat.one_shiftLeft]
  exact Nat.pow_lt_pow_right (by decide) hb

theorem setBit_val (e : Word32) (b : Nat) (hb : b < 32) :
    (w32 (e.val ||| (1 <<< b))).val = e.val ||| (1 <<< b) :=
  w32_val_of_lt _ (Nat.or_lt_two_pow e.isLt (mask_lt b hb))

theorem clrBit_val (e : Word32) (b : Nat) :
    (w32 (e.val &&& (0xFFFFFFFF ^^^ (1 <<< b)))).val = clearBit e.val b :=
  w32_val_of_lt _ (lt_of_le_of_lt Nat.and_le_left e.isLt)

theorem testBit_setBit (x b i : Nat) :
    (x ||| (1 <<< b)).testBit i = (x.testBit i || decide (i = b)) := by
  rw [Nat.testBit_or, Nat.one_shiftLeft, Nat.testBit_two_pow]
  by_cases h : i = b
  · subst h; simp
  · have h1 : ¬ b = i := fun e => h e.symm
    simp [h, h1]

theorem testBit_clearBit_word (e : Word32) (b i : Nat) (hb : b < 32) :
    (clearBit e.val b).testBit i = (e.val.testBit i && decide (i ≠ b)) := by
  rw [testBit_clearBit e.val b i hb]
  by_cases h : i < 32
  · simp [h]
  · rw [testBit_false_of_lt_pow e.val 32 i e.isLt (by omega)]
    simp

theorem bankOf_cases (line : Nat) :
    (line ≤ 31 ∧ bankOf line = 0) ∨ (¬ line ≤ 31 ∧ line ≤ 63 ∧ bankOf line = 1) ∨
      (¬ line ≤ 31 ∧ ¬ line ≤ 63 ∧ bankOf line = 2) := by
  unfold bankOf
  by_cases h1 : line ≤ 31
  · exact Or.inl ⟨h1, by rw [if_pos h1]⟩
  · by_cases h2 : line ≤ 63
    · exact Or.inr (Or.inl ⟨h1, h2, by rw [if_neg h1, if_pos h2]⟩)
    · exact Or.inr (Or.inr ⟨h1, h2, by rw [if_neg h1, if_neg h2]⟩)

/-- `EnableInterrupt` on a line of the table, in terms of the bank of the line. -/
theorem EnableInterrupt_eq (line : Nat) (s : State) (hline : line < BCM2835_INTC_TOTAL_IRQ) :
    EnableInterrupt line s =
      ((0 : Int), orEnabled (bankOf line) (1 <<< (line % 32))
        (regWrite (enableReg (bankOf line)) (1 <<< (line % 32)) s)) := by
  unfold EnableInterrupt
  rcases bankOf_cases line with ⟨h1, hb⟩ | ⟨h1, h2, hb⟩ | ⟨h1, h2, hb⟩
  · rw [hb]; simp only [h1, if_true]; rfl
  · rw [hb]; simp only [h1, h2, if_true, if_false]; rfl
  · rw [hb]; simp only [h1, h2, hline, if_true, if_false]; rfl

/-- `DisableInterrupt` on a line of the table, in terms of the bank of the line. -/
theorem DisableInterrupt_eq (line : Nat) (s : State) (hline : line < BCM2835_INTC_TOTAL_IRQ) :
    DisableInterrupt line s =
      ((0 : Int), andNotEnabled (bankOf line) (1 <<< (line % 32))
        (regWrite (disableReg (bankOf line)) (1 <<< (line % 32)) s)) := by
  unfold DisableInterrupt
  rcases bankOf_cases line with ⟨h1, hb⟩ | ⟨h1, h2, hb⟩ | ⟨h1, h2, hb⟩
  · rw [hb]; simp only [h1, if_true]; rfl
  · rw [hb]; simp only [h1, h2, if_true, if_false]; rfl
  · rw [hb]; simp only [h1, h2, hline, if_true, if_false]; rfl

/-- C6: for every line in [0,72), `EnableInterrupt (line)` returns 0, makes exactly
one store, of `1 << (line mod 32)` to the enable register of the bank of the line,
sets bit `line mod 32` of the `enabled` word of that bank, and leaves the other bits
of that word, the other two `enabled` words and the vector table as they were. -/
theorem EnableInterrupt_effect (line : Nat) (s : State) (hline : line < BCM2835_INTC_TOTAL_IRQ) :
    (EnableInterrupt line s).1 = 0 ∧
    (EnableInterrupt line s).2.writes =
      s.writes ++ [(enableReg (bankOf line), 1 <<< (line % 32))] ∧
    ((EnableInterrupt line s).2.enabled (bankOf line)).val.testBit (line % 32) = true ∧
    (∀ i, i ≠ line % 32 →
      ((EnableInterrupt line s).2.enabled (bankOf line)).val.testBit i =
        (s.enabled (bankOf line)).val.testBit i) ∧
    (∀ k, k ≠ bankOf line → (EnableInterrupt line s).2.enabled k = s.enabled k) ∧
    (EnableInterrupt line s).2.g_VectorTable = s.g_VectorTable := by
  have hb : line % 32 < 32 := Nat.mod_lt _ (by decide)
  rw [EnableInterrupt_eq line s hline]
  refine ⟨rfl, rfl, ?_, ?_, ?_, rfl⟩
  · show (Function.update s.enabled (bankOf line) _ (bankOf line)).val.testBit _ = true
    rw [Function.update_same, setBit_val _ _ hb, testBit_setBit]
    simp
  · intro i hi
    show (Function.update s.enabled (bankOf line) _ (bankOf line)).val.testBit _ = _
    rw [Function.update_same, setBit_val _ _ hb, testBit_setBit]
    simp [hi]
    rfl
  · intro k hk
    show Function.update s.enabled (bankOf line) _ k = _
    rw [Function.update_noteq hk]

/-- C6 at line 70 of bank C. -/
theorem EnableInterrupt_effect_witness :
    (EnableInterrupt 70 quietState).1 = 0 ∧
    (EnableInterrupt 70 quietState).2.writes =
      quietState.writes ++ [(enableReg (bankOf 70), 1 <<< (70 % 32))] ∧
    ((EnableInterrupt 70 quietState).2.enabled (bankOf 70)).val.testBit (70 % 32) = true ∧
    (∀ i, i ≠ 70 % 32 →
      ((EnableInterrupt 70 quietState).2.enabled (bankOf 70)).val.testBit i =
        (quietState.enabled (bankOf 70)).val.testBit i) ∧
    (∀ k, k ≠ bankOf 70 → (EnableInterrupt 70 quietState).2.enabled k = quietState.enabled k) ∧
    (EnableInterrupt 70 quietState).2.g_VectorTable = quietState.g_VectorTable :=
  EnableInterrupt_effect 70 quietState (by decide)

/-- C7: for every line in [0,72), `DisableInterrupt (line)` returns 0, makes exactly
one store, of `1 << (line mod 32)` to the disable register of the bank of the line,
clears bit `line mod 32` of the `enabled` word of that bank, and leaves the other
bits of that word, the other two `enabled` words and the vector table as they were. -/
theorem DisableInterrupt_effect (line : Nat) (s : State) (hline : line < BCM2835_INTC_TOTAL_IRQ) :
    (DisableInterrupt line s).1 = 0 ∧
    (DisableInterrupt line s).2.writes =
      s.writes ++ [(disableReg (bankOf line), 1 <<< (line % 32))] ∧
    ((DisableInterrupt line s).2.enabled (bankOf line)).val.testBit (line % 32) = false ∧
    (∀ i, i ≠ line % 32 →
      ((DisableInterrupt line s).2.enabled (bankOf line)).val.testBit i =
        (s.enabled (bankOf line)).val.testBit i) ∧
    (∀ k, k ≠ bankOf line → (DisableInterrupt line s).2.enabled k = s.enabled k) ∧
    (DisableInterrupt line s).2.g_VectorTable = s.g_VectorTable := by
  have hb : line % 32 < 32 := Nat.mod_lt _ (by decide)
  rw [DisableInterrupt_eq line s hline]
  refine ⟨rfl, rfl, ?_, ?_, ?_, rfl⟩
  · show (Function.update s.enabled (bankOf line) _ (bankOf line)).val.testBit _ = false
    rw [Function.update_same, clrBit_val, testBit_clearBit_word _ _ _ hb]
    simp
  · intro i hi
    show (Function.update s.enabled (bankOf line) _ (bankOf line)).val.testBit _ = _
    rw [Function.update_same, clrBit_val, testBit_clearBit_word _ _ _ hb]
    simp [hi]
    rfl
  · intro k hk
    show Function.update s.enabled (bankOf line) _ k = _
    rw [Function.update_noteq hk]

/-- C7 at line 40 of bank B, which `raisedLine40` has enabled. -/
theorem DisableInterrupt_effect_witness :
    (DisableInterrupt 40 raisedLine40).1 = 0 ∧
    (DisableInterrupt 40 raisedLine40).2.writes =
      raisedLine40.writes ++ [(disableReg (bankOf 40), 1 <<< (40 % 32))] ∧
    ((DisableInterrupt 40 raisedLine40).2.enabled (bankOf 40)).val.testBit (40 % 32) = false ∧
    (∀ i, i ≠ 40 % 32 →
      ((DisableInterrupt 40 raisedLine40).2.enabled (bankOf 40)).val.testBit i =
        (raisedLine40.enabled (bankOf 40)).val.testBit i) ∧
    (∀ k, k ≠ bankOf 40 →
      (DisableInterrupt 40 raisedLine40).2.enabled k = raisedLine40.enabled k) ∧
    (DisableInterrupt 40 raisedLine40).2.g_VectorTable = raisedLine40.g_VectorTable :=
  DisableInterrupt_effect 40 raisedLine40 (by decide)

/-! ## C8: enable followed by disable -/

theorem set_then_clear (e : Word32) (b : Nat) (hb : b < 32) (h : e.val.testBit b = false) :
    w32 ((w32 (e.val ||| (1 <<< b))).val &&& (0xFFFFFFFF ^^^ (1 <<< b))) = e := by
  apply Fin.ext
  rw [clrBit_val]
  apply Nat.eq_of_testBit_eq
  intro i
  rw [testBit_clearBit_word _ _ _ hb, setBit_val _ _ hb, testBit_setBit]
  by_cases hi : i = b
  · subst hi; simp [h]
  · simp [hi]

theorem hwStore_enableReg (k : Fin 3) (m : Nat) (hw : Fin 3 → Word32) :
    hwStore (enableReg k) m hw = Function.update hw k (w32 ((hw k).val ||| m)) := by
  fin_cases k <;> rfl

theorem hwStore_disableReg (k : Fin 3) (m : Nat) (hw : Fin 3 → Word32) :
    hwStore (disableReg k) m hw =
      Function.update hw k (w32 ((hw k).val &&& (0xFFFFFFFF ^^^ m))) := by
  fin_cases k <;> rfl

theorem update_set_then_clear (f : Fin 3 → Word32) (k : Fin 3) (b : Nat) (hb : b < 32)
    (h : (f k).val.testBit b = false) :
    Function.update (Function.update f k (w32 ((f k).val ||| (1 <<< b)))) k
      (w32 ((Function.update f k (w32 ((f k).val ||| (1 <<< b))) k).val &&&
        (0xFFFFFFFF ^^^ (1 <<< b)))) = f := by
  rw [Function.update_same, Function.update_idem, set_then_clear _ _ hb h,
    Function.update_eq_self]

/-- C8, as amended: for every line in [0,72) and every starting state in which the
line is not enabled (its bit clear in the `enabled` word and in the hardware enable
latch of its bank), `EnableInterrupt (line)` followed by `DisableInterrupt (line)`,
both returning 0, restores the three `enabled` words and the three hardware enable
latches to the values they had before the enable. -/
theorem enable_then_disable_restores (line : Nat) (s : State)
    (hline : line < BCM2835_INTC_TOTAL_IRQ)
    (hoff : (s.enabled (bankOf line)).val.testBit (line % 32) = false)
    (hhw : (s.hwEnable (bankOf line)).val.testBit (line % 32) = false) :
    (EnableInterrupt line s).1 = 0 ∧
    (DisableInterrupt line (EnableInterrupt line s).2).1 = 0 ∧
    (DisableInterrupt line (EnableInterrupt line s).2).2.enabled = s.enabled ∧
    (DisableInterrupt line (EnableInterrupt line s).2).2.hwEnable = s.hwEnable := by
  have hb : line % 32 < 32 := Nat.mod_lt _ (by decide)
  rw [DisableInterrupt_eq line _ hline, EnableInterrupt_eq line s hline]
  refine ⟨rfl, rfl, ?_, ?_⟩
  · exact update_set_then_clear s.enabled (bankOf line) (line % 32) hb hoff
  · show hwStore (disableReg (bankOf line)) _ (hwStore (enableReg (bankOf line)) _ s.hwEnable) = _
    rw [hwStore_enableReg, hwStore_disableReg]
    exact update_set_then_clear s.hwEnable (bankOf line) (line % 32) hb hhw

/-- C8 at line 33 of bank B, from the quiet state. -/
theorem enable_then_disable_restores_witness :
    (EnableInterrupt 33 quietState).1 = 0 ∧
    (DisableInterrupt 33 (EnableInterrupt 33 quietState).2).1 = 0 ∧
    (DisableInterrupt 33 (EnableInterrupt 33 quietState).2).2.enabled = quietState.enabled ∧
    (DisableInterrupt 33 (EnableInterrupt 33 quietState).2).2.hwEnable = quietState.hwEnable :=
  enable_then_disable_restores 33 quietState (by decide) (by decide) (by decide)

/-- C8 as stated fails on a line that is already enabled: from the state in which
line 5 is enabled (`enabled[0]` and the bank A latch both 0x20), enable then
disable of line 5 leaves both at 0, not at the values before the enable. -/
theorem enable_then_disable_counterexample :
    (line5Enabled.enabled 0).val = 32 ∧ (line5Enabled.hwEnable 0).val = 32 ∧
    ((DisableInterrupt 5 (EnableInterrupt 5 line5Enabled).2).2.enabled 0).val = 0 ∧
    ((DisableInterrupt 5 (EnableInterrupt 5 line5Enabled).2).2.hwEnable 0).val = 0 ∧
    (DisableInterrupt 5 (EnableInterrupt 5 line5Enabled).2).2.enabled ≠ line5Enabled.enabled := by
  refine ⟨by decide, by decide, by decide, by decide, ?_⟩
  intro h
  have h0 := congrFun h 0
  revert h0
  decide

/-! ## C9: initialisation -/

/-- The loop body of `InitInterruptController`. -/
theorem init_step_table (st : State) (a i : Fin BCM2835_INTC_TOTAL_IRQ) :
    (writeParam a 0 (writeHandler a .stubHandler st)).g_VectorTable i =
      if i = a then ⟨.stubHandler, 0⟩ else st.g_VectorTable i := by
  by_cases h : i = a
  · subst h; simp [writeParam, writeHandler]
  · simp [writeParam, writeHandler, h]

theorem init_fold (l : List (Fin BCM2835_INTC_TOTAL_IRQ)) :
    ∀ s : State,
      l.foldl (fun st i => writeParam i 0 (writeHandler i .stubHandler st)) s =
        { s with g_VectorTable :=
            fun i => if i ∈ l then ⟨.stubHandler, 0⟩ else s.g_VectorTable i } := by
  induction l with
  | nil => intro s; simp
  | cons a l ih =>
    intro s
    rw [List.foldl_cons, ih]
    have hfun : (fun i => if i ∈ l then (⟨.stubHandler, 0⟩ : INTERRUPT_VECTOR)
          else (writeParam a 0 (writeHandler a .stubHandler s)).g_VectorTable i) =
        (fun i => if i ∈ a :: l then (⟨.stubHandler, 0⟩ : INTERRUPT_VECTOR)
          else s.g_VectorTable i) := by
      funext i
      rw [init_step_table]
      by_cases h1 : i ∈ l
      · simp [h1]
      · by_cases h2 : i = a
        · simp [h2]
        · simp [h1, h2]
    rw [hfun]
    rfl

/-- `InitInterruptController` in closed form. -/
theorem InitInterruptController_eq (s : State) :
    InitInterruptController s =
      ((0 : Int), { s with g_VectorTable := fun _ => ⟨.stubHandler, 0⟩ }) := by
  unfold InitInterruptController
  rw [init_fold]
  simp [List.mem_finRange]

theorem callsFromTable_tail (ext : Handlers) (s : State) (c : Call) (cs : List Call)
    (h : CallsFromTable ext s (c :: cs)) :
    CallsFromTable ext (invoke ext c.pfnHandler c.irq c.pParam s) cs := by
  intro pre d post hsplit
  have := h (c :: pre) d post (by rw [hsplit]; rfl)
  rw [replay_cons] at this
  exact this

/-- Calls made through a table that holds only the stub are stub calls with a null
context, and they leave the state as it is. -/
theorem stub_table_calls (ext : Handlers) (s : State)
    (hstub : s.g_VectorTable = fun _ => ⟨.stubHandler, 0⟩) (calls : List Call) :
    CallsFromTable ext s calls →
      replay ext calls s = s ∧ ∀ c ∈ calls, c.pfnHandler = .stubHandler ∧ c.pParam = 0 := by
  induction calls with
  | nil => intro _; exact ⟨rfl, fun c hc => by simp at hc⟩
  | cons c cs ih =>
    intro h
    have h0 : entryAt s c.irq = some ⟨c.pfnHandler, c.pParam⟩ := h [] c cs rfl
    have hc : c.pfnHandler = .stubHandler ∧ c.pParam = 0 := by
      unfold entryAt at h0
      rw [hstub] at h0
      by_cases hlt : c.irq < BCM2835_INTC_TOTAL_IRQ
      · rw [dif_pos hlt] at h0
        simp only [Option.some.injEq, INTERRUPT_VECTOR.mk.injEq] at h0
        exact ⟨h0.1.symm, h0.2.symm⟩
      · rw [dif_neg hlt] at h0
        simp at h0
    have htail := callsFromTable_tail ext s c cs h
    have hinv : invoke ext c.pfnHandler c.irq c.pParam s = s := by
      rw [hc.1]; rfl
    rw [hinv] at htail
    obtain ⟨h1, h2⟩ := ih htail
    refine ⟨?_, ?_⟩
    · rw [replay_cons, hinv]; exact h1
    · intro d hd
      rw [List.mem_cons] at hd
      rcases hd with rfl | hd
      · exact hc
      · exact h2 d hd

/-- A dispatch through a table that holds only the stub: it returns the state it
was entered in, and its calls are stub calls on the lines of `dispatchOrder`. -/
theorem irqHandler_stub_table (ext : Handlers) (s : State)
    (hstub : s.g_VectorTable = fun _ => ⟨.stubHandler, 0⟩) :
    ∃ calls, irqHandler ext s = .ok (s, calls) ∧ calls.map Call.irq = dispatchOrder s ∧
      ∀ c ∈ calls, c.pfnHandler = .stubHandler ∧ c.pParam = 0 := by
  obtain ⟨s1, s2, s3, cA, cB, cC, hrun, h1, h2, h3, tA, tB, tC, hA, hB, hC⟩ :=
    irqHandler_run ext s
  obtain ⟨rA, fA⟩ := stub_table_calls ext s hstub cA tA
  have e1 : s1 = s := h1.trans rA
  rw [e1] at tB h2 hB
  obtain ⟨rB, fB⟩ := stub_table_calls ext s hstub cB tB
  have e2 : s2 = s := h2.trans rB
  rw [e2] at tC h3 hC
  obtain ⟨rC, fC⟩ := stub_table_calls ext s hstub cC tC
  have e3 : s3 = s := h3.trans rC
  rw [e3] at hrun
  refine ⟨cA ++ cB ++ cC, hrun, ?_, ?_⟩
  · rw [List.map_append, List.map_append, hA, hB, hC]
    rfl
  · intro c hc
    rw [List.mem_append, List.mem_append] at hc
    rcases hc with (hc | hc) | hc
    · exact fA c hc
    · exact fB c hc
    · exact fC c hc

/-- C9, as amended: from every starting state `InitInterruptController` returns 0
and leaves every one of the 72 vector entries equal to `(stubHandler, null)`, so
that running it a second time changes nothing; after it, a dispatch returns, makes
only stub calls with a null context and leaves the state as it was, and every line
in [0,72) that is pending and enabled and, for lines 0-63, has the summary bit of
its bank set in the basic status (bit 8 for lines 0-31, bit 9 for lines 32-63) gets
exactly one stub call; the stub itself changes no state. -/
theorem InitInterruptController_effect (ext : Handlers) (s : State) :
    (InitInterruptController s).1 = 0 ∧
    (∀ i, (InitInterruptController s).2.g_VectorTable i = ⟨.stubHandler, 0⟩) ∧
    InitInterruptController (InitInterruptController s).2 = InitInterruptController s ∧
    (∃ calls, irqHandler ext (InitInterruptController s).2 =
        .ok ((InitInterruptController s).2, calls) ∧
      (∀ c ∈ calls, c.pfnHandler = .stubHandler ∧ c.pParam = 0) ∧
      (∀ line, line < BCM2835_INTC_TOTAL_IRQ →
        lineEnabled (InitInterruptController s).2 line →
        linePending (InitInterruptController s).2 line →
        bankAnnounced (InitInterruptController s).2 line →
        calls.count ⟨.stubHandler, line, 0⟩ = 1)) ∧
    (∀ irq pParam st, stubHandler irq pParam st = st) := by
  have hstub : (InitInterruptController s).2.g_VectorTable = fun _ => ⟨.stubHandler, 0⟩ := by
    rw [InitInterruptController_eq]
  refine ⟨?_, ?_, ?_, ?_, fun _ _ _ => rfl⟩
  · rw [InitInterruptController_eq]
  · intro i
    rw [hstub]
  · rw [InitInterruptController_eq s, InitInterruptController_eq]
  · obtain ⟨calls, hrun, hirqs, hall⟩ :=
      irqHandler_stub_table ext (InitInterruptController s).2 hstub
    refine ⟨calls, hrun, hall, ?_⟩
    intro line hline hen hpend hsum
    have hsame : ∀ c ∈ calls, c.irq = line → c = ⟨.stubHandler, line, 0⟩ := by
      intro c hc hl
      obtain ⟨h1, h2⟩ := hall c hc
      cases c with
      | mk f i q =>
        simp only at hl h1 h2
        rw [hl, h1, h2]
    rw [count_call_eq_count_line calls line ⟨.stubHandler, line, 0⟩ rfl hsame, hirqs]
    exact List.count_eq_one_of_mem (dispatchOrder_nodup _)
      (mem_dispatchOrder _ line hline hen hpend hsum)

/-! ## C10: registration -/

/-- C10: for every line in [0,72), `RegisterInterrupt (line, h, ctx)` returns 0 and
makes entry `line` equal to `(h, ctx)` whatever it held before, so that after two
registrations on the same line the entry holds the second pair; every other vector
entry and the three `enabled` words are as they were. -/
theorem RegisterInterrupt_effect (line : Nat) (h : FN_INTERRUPT_HANDLER) (ctx : Nat) (s : State)
    (hline : line < BCM2835_INTC_TOTAL_IRQ) :
    (RegisterInterrupt line h ctx s).1 = 0 ∧
    entryAt (RegisterInterrupt line h ctx s).2 line = some ⟨h, ctx⟩ ∧
    (∀ h2 ctx2,
      entryAt (RegisterInterrupt line h2 ctx2 (RegisterInterrupt line h ctx s).2).2 line =
        some ⟨h2, ctx2⟩) ∧
    (∀ j, j ≠ line → entryAt (RegisterInterrupt line h ctx s).2 j = entryAt s j) ∧
    (RegisterInterrupt line h ctx s).2.enabled = s.enabled := by
  have hge : ¬ line ≥ BCM2835_INTC_TOTAL_IRQ := Nat.not_le.mpr hline
  refine ⟨(RegisterInterrupt_entry line h ctx s hline).1,
    (RegisterInterrupt_entry line h ctx s hline).2,
    fun h2 ctx2 => (RegisterInterrupt_entry line h2 ctx2 _ hline).2, ?_, ?_⟩
  · intro j hj
    unfold RegisterInterrupt
    rw [dif_neg hge]
    unfold entryAt
    by_cases hjlt : j < BCM2835_INTC_TOTAL_IRQ
    · rw [dif_pos hjlt, dif_pos hjlt]
      have hne : (⟨j, hjlt⟩ : Fin BCM2835_INTC_TOTAL_IRQ) ≠ ⟨line, Nat.lt_of_not_ge hge⟩ := by
        intro heq
        exact hj (Fin.mk.inj heq)
      simp [irqEnable, writeParam, writeHandler, irqDisable, Function.update_noteq hne]
    · rw [dif_neg hjlt, dif_neg hjlt]
  · unfold RegisterInterrupt
    rw [dif_neg hge]
    rfl

/-- C10 at line 71, the last line of the table. -/
theorem RegisterInterrupt_effect_witness :
    (RegisterInterrupt 71 (.handlerAt 1) 7 raisedLine40).1 = 0 ∧
    entryAt (RegisterInterrupt 71 (.handlerAt 1) 7 raisedLine40).2 71 = some ⟨.handlerAt 1, 7⟩ ∧
    (∀ h2 ctx2,
      entryAt (RegisterInterrupt 71 h2 ctx2
        (RegisterInterrupt 71 (.handlerAt 1) 7 raisedLine40).2).2 71 = some ⟨h2, ctx2⟩) ∧
    (∀ j, j ≠ 71 →
      entryAt (RegisterInterrupt 71 (.handlerAt 1) 7 raisedLine40).2 j = entryAt raisedLine40 j) ∧
    (RegisterInterrupt 71 (.handlerAt 1) 7 raisedLine40).2.enabled = raisedLine40.enabled :=
  RegisterInterrupt_effect 71 (.handlerAt 1) 7 raisedLine40 (by decide)

/-! ## C11: the mirror and the hardware enable state stay consistent -/

theorem mirrorConsistent_congr (s t : State) (he : t.enabled = s.enabled)
    (hh : t.hwEnable = s.hwEnable) (h : MirrorConsistent s) : MirrorConsistent t := by
  intro k i hi hbit
  rw [he] at hbit
  rw [hh]
  exact h k i hi hbit

theorem EnableInterrupt_out_of_range (line : Nat) (s : State)
    (hline : BCM2835_INTC_TOTAL_IRQ ≤ line) : EnableInterrupt line s = (-1, s) := by
  have h72 : 72 ≤ line := hline
  have h1 : ¬ line ≤ 31 := by omega
  have h2 : ¬ line ≤ 63 := by omega
  have h3 : ¬ line < BCM2835_INTC_TOTAL_IRQ := Nat.not_lt.mpr hline
  unfold EnableInterrupt
  simp only [h1, h2, h3, if_false]

theorem DisableInterrupt_out_of_range (line : Nat) (s : State)
    (hline : BCM2835_INTC_TOTAL_IRQ ≤ line) : DisableInterrupt line s = (-1, s) := by
  have h72 : 72 ≤ line := hline
  have h1 : ¬ line ≤ 31 := by omega
  have h2 : ¬ line ≤ 63 := by omega
  have h3 : ¬ line < BCM2835_INTC_TOTAL_IRQ := Nat.not_lt.mpr hline
  unfold DisableInterrupt
  simp only [h1, h2, h3, if_false]

/-- What `EnableInterrupt` leaves in `enabled` and in the hardware latches. -/
theorem EnableInterrupt_words (line : Nat) (s : State) (hline : line < BCM2835_INTC_TOTAL_IRQ) :
    (EnableInterrupt line s).2.enabled =
      Function.update s.enabled (bankOf line)
        (w32 ((s.enabled (bankOf line)).val ||| (1 <<< (line % 32)))) ∧
    (EnableInterrupt line s).2.hwEnable =
      Function.update s.hwEnable (bankOf line)
        (w32 ((s.hwEnable (bankOf line)).val ||| (1 <<< (line % 32)))) := by
  rw [EnableInterrupt_eq line s hline]
  refine ⟨rfl, ?_⟩
  show hwStore (enableReg (bankOf line)) _ s.hwEnable = _
  rw [hwStore_enableReg]

/-- What `DisableInterrupt` leaves in `enabled` and in the hardware latches. -/
theorem DisableInterrupt_words (line : Nat) (s : State) (hline : line < BCM2835_INTC_TOTAL_IRQ) :
    (DisableInterrupt line s).2.enabled =
      Function.update s.enabled (bankOf line)
        (w32 ((s.enabled (bankOf line)).val &&& (0xFFFFFFFF ^^^ (1 <<< (line % 32))))) ∧
    (DisableInterrupt line s).2.hwEnable =
      Function.update s.hwEnable (bankOf line)
        (w32 ((s.hwEnable (bankOf line)).val &&& (0xFFFFFFFF ^^^ (1 <<< (line % 32))))) := by
  rw [DisableInterrupt_eq line s hline]
  refine ⟨rfl, ?_⟩
  show hwStore (disableReg (bankOf line)) _ s.hwEnable = _
  rw [hwStore_disableReg]

theorem mirrorConsistent_update (s t : State) (k : Fin 3) (e h : Word32)
    (he : t.enabled = Function.update s.enabled k e)
    (hh : t.hwEnable = Function.update s.hwEnable k h)
    (hbits : ∀ i, i < 32 → e.val.testBit i = true → h.val.testBit i = true)
    (hs : MirrorConsistent s) : MirrorConsistent t := by
  intro j i hi hbit
  rw [he] at hbit
  rw [hh]
  by_cases hj : j = k
  · subst hj
    rw [Function.update_same] at hbit ⊢
    exact hbits i hi hbit
  · rw [Function.update_noteq hj] at hbit ⊢
    exact hs j i hi hbit

theorem replay_append (ext : Handlers) (a b : List Call) (s : State) :
    replay ext (a ++ b) s = replay ext b (replay ext a s) := by
  unfold replay
  rw [List.foldl_append]

theorem replay_mirrorConsistent (ext : Handlers)
    (hext : ∀ a irq p st, MirrorConsistent st → MirrorConsistent (ext a irq p st))
    (calls : List Call) : ∀ s, MirrorConsistent s → MirrorConsistent (replay ext calls s) := by
  induction calls with
  | nil => intro s hs; exact hs
  | cons c cs ih =>
    intro s hs
    rw [replay_cons]
    apply ih
    cases hf : c.pfnHandler with
    | stubHandler => exact hs
    | handlerAt a => exact hext a c.irq c.pParam s hs

/-- C11: from a state in which every bit set in an `enabled` word is set in the
hardware enable latch of the same bank (latches being write-1-to-set through the
enable registers and write-1-to-clear through the disable registers), every
operation keeps it so: `InitInterruptController`, `RegisterInterrupt`,
`EnableInterrupt` and `DisableInterrupt` on any line, and `irqHandler`, which
stores nothing itself and so keeps it whenever the handlers it calls do; on a line
of the table the enable and the disable change the mirror word and the latch of
the bank together, with the same mask `1 << (line mod 32)`. -/
theorem mirror_consistency_preserved (ext : Handlers) (s : State) (hinv : MirrorConsistent s) :
    MirrorConsistent (InitInterruptController s).2 ∧
    (∀ line h ctx, MirrorConsistent (RegisterInterrupt line h ctx s).2) ∧
    (∀ line, MirrorConsistent (EnableInterrupt line s).2) ∧
    (∀ line, MirrorConsistent (DisableInterrupt line s).2) ∧
    (∃ s1 calls, irqHandler ext s = .ok (s1, calls) ∧ s1 = replay ext calls s ∧
      ((∀ a irq p st, MirrorConsistent st → MirrorConsistent (ext a irq p st)) →
        MirrorConsistent s1)) ∧
    (∀ line, line < BCM2835_INTC_TOTAL_IRQ →
      (EnableInterrupt line s).2.enabled (bankOf line) =
        w32 ((s.enabled (bankOf line)).val ||| (1 <<< (line % 32))) ∧
      (EnableInterrupt line s).2.hwEnable (bankOf line) =
        w32 ((s.hwEnable (bankOf line)).val ||| (1 <<< (line % 32))) ∧
      (DisableInterrupt line s).2.enabled (bankOf line) =
        w32 ((s.enabled (bankOf line)).val &&& (0xFFFFFFFF ^^^ (1 <<< (line % 32)))) ∧
      (DisableInterrupt line s).2.hwEnable (bankOf line) =
        w32 ((s.hwEnable (bankOf line)).val &&& (0xFFFFFFFF ^^^ (1 <<< (line % 32))))) := by
  refine ⟨?_, ?_, ?_, ?_, ?_, ?_⟩
  · rw [InitInterruptController_eq]
    exact mirrorConsistent_congr s _ rfl rfl hinv
  · intro line h ctx
    unfold RegisterInterrupt
    by_cases hge : line ≥ BCM2835_INTC_TOTAL_IRQ
    · rw [dif_pos hge]; exact hinv
    · rw [dif_neg hge]
      exact mirrorConsistent_congr s _ rfl rfl hinv
  · intro line
    by_cases hline : line < BCM2835_INTC_TOTAL_IRQ
    · have hb : line % 32 < 32 := Nat.mod_lt _ (by decide)
      obtain ⟨he, hh⟩ := EnableInterrupt_words line s hline
      refine mirrorConsistent_update s _ (bankOf line) _ _ he hh ?_ hinv
      intro i hi hbit
      rw [setBit_val _ _ hb, testBit_setBit] at hbit ⊢
      rw [Bool.or_eq_true] at hbit ⊢
      rcases hbit with h | h
      · exact Or.inl (hinv (bankOf line) i hi h)
      · exact Or.inr h
    · rw [EnableInterrupt_out_of_range line s (Nat.le_of_not_lt hline)]
      exact hinv
  · intro line
    by_cases hline : line < BCM2835_INTC_TOTAL_IRQ
    · have hb : line % 32 < 32 := Nat.mod_lt _ (by decide)
      obtain ⟨he, hh⟩ := DisableInterrupt_words line s hline
      refine mirrorConsistent_update s _ (bankOf line) _ _ he hh ?_ hinv
      intro i hi hbit
      rw [clrBit_val, testBit_clearBit_word _ _ _ hb] at hbit ⊢
      rw [Bool.and_eq_true] at hbit ⊢
      exact ⟨hinv (bankOf line) i hi hbit.1, hbit.2⟩
    · rw [DisableInterrupt_out_of_range line s (Nat.le_of_not_lt hline)]
      exact hinv
  · obtain ⟨s1, s2, s3, cA, cB, cC, hrun, h1, h2, h3, _⟩ := irqHandler_run ext s
    have hs3 : s3 = replay ext (cA ++ cB ++ cC) s := by
      rw [replay_append, replay_append, ← h1, ← h2, ← h3]
    refine ⟨s3, cA ++ cB ++ cC, hrun, hs3, ?_⟩
    intro hext
    rw [hs3]
    exact replay_mirrorConsistent ext hext _ s hinv
  · intro line hline
    obtain ⟨he, hh⟩ := EnableInterrupt_words line s hline
    obtain ⟨de, dh⟩ := DisableInterrupt_words line s hline
    rw [he, hh, de, dh]
    simp only [Function.update_same, and_self]

/-- C11 from the state in which line 40 is enabled and raised. -/
theorem mirror_consistency_preserved_witness :
    MirrorConsistent (InitInterruptController raisedLine40).2 ∧
    (∀ line h ctx, MirrorConsistent (RegisterInterrupt line h ctx raisedLine40).2) ∧
    (∀ line, MirrorConsistent (EnableInterrupt line raisedLine40).2) ∧
    (∀ line, MirrorConsistent (DisableInterrupt line raisedLine40).2) ∧
    (∃ s1 calls, irqHandler idleHandlers raisedLine40 = .ok (s1, calls) ∧
      s1 = replay idleHandlers calls raisedLine40 ∧
      ((∀ a irq p st, MirrorConsistent st → MirrorConsistent (idleHandlers a irq p st)) →
        MirrorConsistent s1)) ∧
    (∀ line, line < BCM2835_INTC_TOTAL_IRQ →
      (EnableInterrupt line raisedLine40).2.enabled (bankOf line) =
        w32 ((raisedLine40.enabled (bankOf line)).val ||| (1 <<< (line % 32))) ∧
      (EnableInterrupt line raisedLine40).2.hwEnable (bankOf line) =
        w32 ((raisedLine40.hwEnable (bankOf line)).val ||| (1 <<< (line % 32))) ∧
      (DisableInterrupt line raisedLine40).2.enabled (bankOf line) =
        w32 ((raisedLine40.enabled (bankOf line)).val &&&
          (0xFFFFFFFF ^^^ (1 <<< (line % 32)))) ∧
      (DisableInterrupt line raisedLine40).2.hwEnable (bankOf line) =
        w32 ((raisedLine40.hwEnable (bankOf line)).val &&&
          (0xFFFFFFFF ^^^ (1 <<< (line % 32))))) :=
  mirror_consistency_preserved idleHandlers raisedLine40 (by decide)

/-! ## Calls and the entries they come from -/

theorem handleRange_zero (ext : Handlers) (base : Nat) (s : State) :
    handleRange ext 0 base s = .ok (s, []) := by
  rw [handleRange]
  simp

/-- C13: with `(h, ctx)` registered on line 70 and line 70 the only enabled line, for
every basic status whose low byte is `0b01000000`, whatever its bits 8-31, and
every value of `Pending1` and `Pending2`, one `irqHandler` call makes exactly one
call, `h (70, ctx)`, and nothing else. -/
theorem bankC_line70_alone (ext : Handlers) (s : State) (h : FN_INTERRUPT_HANDLER) (ctx : Nat)
    (hreg : entryAt s 70 = some ⟨h, ctx⟩)
    (he0 : (s.enabled 0).val = 0) (he1 : (s.enabled 1).val = 0)
    (he2 : (s.enabled 2).val = 2 ^ 6) (hlow : s.IRQBasic.val % 256 = 0b01000000) :
    irqHandler ext s = .ok (invoke ext h 70 ctx s, [⟨h, 70, ctx⟩]) := by
  have hff : s.IRQBasic.val &&& 0xFF = 64 := by
    have := Nat.and_pow_two_sub_one_eq_mod s.IRQBasic.val 8
    rw [← hlow]
    exact this
  have hentry : s.g_VectorTable ⟨70, by decide⟩ = ⟨h, ctx⟩ := by
    unfold entryAt at hreg
    rw [dif_pos (by decide)] at hreg
    exact Option.some.inj hreg
  have hC : handleRange ext 64 64 s = .ok (invoke ext h 70 ctx s, [⟨h, 70, ctx⟩]) := by
    rw [handleRange]
    have ht : topBit 64 = 6 := by decide
    have hc : clearBit 64 6 = 0 := by decide
    have h70 : 64 + 6 < BCM2835_INTC_TOTAL_IRQ := by decide
    simp only [ht, hc, handleRange_zero, h70]
    simp [hentry]
  unfold irqHandler
  simp only [he0, he1, he2, hff, Nat.and_zero, handleRange_zero, ite_self]
  simp [hC]

/-- C13 on the state with every unrelated bit set. -/
theorem bankC_line70_alone_witness :
    irqHandler idleHandlers raisedLine70 =
      .ok (invoke idleHandlers (.handlerAt 70) 70 9 raisedLine70, [⟨.handlerAt 70, 70, 9⟩]) :=
  bankC_line70_alone idleHandlers raisedLine70 (.handlerAt 70) 9 (by decide) (by decide)
    (by decide) (by decide) (by decide)

/-! ## C14: enabling twice -/

theorem set_of_set (e : Word32) (b : Nat) (hb : b < 32) (h : e.val.testBit b = true) :
    w32 (e.val ||| (1 <<< b)) = e := by
  apply Fin.ext
  rw [setBit_val _ _ hb]
  apply Nat.eq_of_testBit_eq
  intro i
  rw [testBit_setBit]
  by_cases hi : i = b
  · subst hi; simp [h]
  · simp [hi]

theorem set_twice (e : Word32) (b : Nat) (hb : b < 32) :
    w32 ((w32 (e.val ||| (1 <<< b))).val ||| (1 <<< b)) = w32 (e.val ||| (1 <<< b)) := by
  apply set_of_set _ _ hb
  rw [setBit_val _ _ hb, testBit_setBit]
  simp

theorem update_set_of_set (f : Fin 3 → Word32) (k : Fin 3) (b : Nat) (hb : b < 32)
    (h : (f k).val.testBit b = true) :
    Function.update f k (w32 ((f k).val ||| (1 <<< b))) = f := by
  rw [set_of_set _ _ hb h, Function.update_eq_self]

/-- C14: for every line in [0,72) and every starting state, `EnableInterrupt (line)`
applied twice returns 0 both times and leaves the same `enabled` words and the same
hardware enable latches (write-1-to-set) as applying it once; and enabling a line
whose bit is already set leaves the `enabled` words, respectively the hardware
enable latches, exactly as they were. -/
theorem EnableInterrupt_idempotent (line : Nat) (s : State)
    (hline : line < BCM2835_INTC_TOTAL_IRQ) :
    (EnableInterrupt line s).1 = 0 ∧
    (EnableInterrupt line (EnableInterrupt line s).2).1 = 0 ∧
    (EnableInterrupt line (EnableInterrupt line s).2).2.enabled =
      (EnableInterrupt line s).2.enabled ∧
    (EnableInterrupt line (EnableInterrupt line s).2).2.hwEnable =
      (EnableInterrupt line s).2.hwEnable ∧
    ((s.enabled (bankOf line)).val.testBit (line % 32) = true →
      (EnableInterrupt line s).2.enabled = s.enabled) ∧
    ((s.hwEnable (bankOf line)).val.testBit (line % 32) = true →
      (EnableInterrupt line s).2.hwEnable = s.hwEnable) := by
  have hb : line % 32 < 32 := Nat.mod_lt _ (by decide)
  obtain ⟨e1, h1⟩ := EnableInterrupt_words line s hline
  obtain ⟨e2, h2⟩ := EnableInterrupt_words line (EnableInterrupt line s).2 hline
  have r1 : (EnableInterrupt line s).1 = 0 := by rw [EnableInterrupt_eq line s hline]
  have r2 : (EnableInterrupt line (EnableInterrupt line s).2).1 = 0 := by
    rw [EnableInterrupt_eq line _ hline]
  refine ⟨r1, r2, ?_, ?_, ?_, ?_⟩
  · rw [e2]
    apply update_set_of_set _ _ _ hb
    rw [e1, Function.update_same, setBit_val _ _ hb, testBit_setBit]
    simp
  · rw [h2]
    apply update_set_of_set _ _ _ hb
    rw [h1, Function.update_same, setBit_val _ _ hb, testBit_setBit]
    simp
  · intro hset
    rw [e1]
    exact update_set_of_set _ _ _ hb hset
  · intro hset
    rw [h1]
    exact update_set_of_set _ _ _ hb hset

/-- C14 at line 5, from the state in which line 5 is already enabled. -/
theorem EnableInterrupt_idempotent_witness :
    (EnableInterrupt 5 line5Enabled).1 = 0 ∧
    (EnableInterrupt 5 (EnableInterrupt 5 line5Enabled).2).1 = 0 ∧
    (EnableInterrupt 5 (EnableInterrupt 5 line5Enabled).2).2.enabled =
      (EnableInterrupt 5 line5Enabled).2.enabled ∧
    (EnableInterrupt 5 (EnableInterrupt 5 line5Enabled).2).2.hwEnable =
      (EnableInterrupt 5 line5Enabled).2.hwEnable ∧
    ((line5Enabled.enabled (bankOf 5)).val.testBit (5 % 32) = true →
      (EnableInterrupt 5 line5Enabled).2.enabled = line5Enabled.enabled) ∧
    ((line5Enabled.hwEnable (bankOf 5)).val.testBit (5 % 32) = true →
      (EnableInterrupt 5 line5Enabled).2.hwEnable = line5Enabled.hwEnable) :=
  EnableInterrupt_idempotent 5 line5Enabled (by decide)

/-! ## C15: registration is atomic for the dispatcher -/

/-- C15: a successful `RegisterInterrupt (line, h, ctx)`, taken as the step sequence
mask, store handler, store context, unmask, passes through three intermediate
states, all with IRQ delivery masked; the second of them holds the new handler
with the old context.  So every state of the sequence in which delivery is not
masked, the only states in which `irqHandler` can be entered, holds in entry `line`
either the pair found at the start or the pair `(h, ctx)`, never a mixed pair. -/
theorem RegisterInterrupt_atomic (line : Nat) (h : FN_INTERRUPT_HANDLER) (ctx : Nat) (s : State)
    (hline : line < BCM2835_INTC_TOTAL_IRQ) :
    ∃ t1 t2 t3 t4,
      runSteps (registerSteps ⟨line, hline⟩ h ctx) s = [s, t1, t2, t3, t4] ∧
      t4 = (RegisterInterrupt line h ctx s).2 ∧
      t1.cpsrI = true ∧ t2.cpsrI = true ∧ t3.cpsrI = true ∧
      t2.g_VectorTable ⟨line, hline⟩ = ⟨h, (s.g_VectorTable ⟨line, hline⟩).pParam⟩ ∧
      (∀ t ∈ [s, t1, t2, t3, t4], t.cpsrI = false →
        t.g_VectorTable ⟨line, hline⟩ = s.g_VectorTable ⟨line, hline⟩ ∨
        t.g_VectorTable ⟨line, hline⟩ = ⟨h, ctx⟩) := by
  have hge : ¬ line ≥ BCM2835_INTC_TOTAL_IRQ := Nat.not_le.mpr hline
  refine ⟨irqDisable s, writeHandler ⟨line, hline⟩ h (irqDisable s),
    writeParam ⟨line, hline⟩ ctx (writeHandler ⟨line, hline⟩ h (irqDisable s)),
    irqEnable (writeParam ⟨line, hline⟩ ctx (writeHandler ⟨line, hline⟩ h (irqDisable s))),
    rfl, ?_, rfl, rfl, rfl, ?_, ?_⟩
  · unfold RegisterInterrupt
    rw [dif_neg hge]
  · simp [writeHandler, irqDisable]
  · intro t ht hmask
    simp only [List.mem_cons, List.mem_singleton, List.not_mem_nil, or_false] at ht
    rcases ht with rfl | rfl | rfl | rfl | rfl
    · exact Or.inl rfl
    · exact absurd hmask (by simp [irqDisable])
    · exact absurd hmask (by simp [writeHandler, irqDisable])
    · exact absurd hmask (by simp [writeParam, writeHandler, irqDisable])
    · right
      simp [irqEnable, writeParam, writeHandler, irqDisable]

/-- C15 at line 40, replacing the entry `(handlerAt 1, 7)` by `(handlerAt 2, 8)`. -/
theorem RegisterInterrupt_atomic_witness :
    ∃ t1 t2 t3 t4,
      runSteps (registerSteps ⟨40, by decide⟩ (.handlerAt 2) 8) raisedLine40 =
        [raisedLine40, t1, t2, t3, t4] ∧
      t4 = (RegisterInterrupt 40 (.handlerAt 2) 8 raisedLine40).2 ∧
      t1.cpsrI = true ∧ t2.cpsrI = true ∧ t3.cpsrI = true ∧
      t2.g_VectorTable ⟨40, by decide⟩ =
        ⟨.handlerAt 2, (raisedLine40.g_VectorTable ⟨40, by decide⟩).pParam⟩ ∧
      (∀ t ∈ [raisedLine40, t1, t2, t3, t4], t.cpsrI = false →
        t.g_VectorTable ⟨40, by decide⟩ = raisedLine40.g_VectorTable ⟨40, by decide⟩ ∨
        t.g_VectorTable ⟨40, by decide⟩ = ⟨.handlerAt 2, 8⟩) :=
  RegisterInterrupt_atomic 40 (.handlerAt 2) 8 raisedLine40 (by decide)

/-! ## C16: the dispatcher never indexes outside the vector table -/

theorem and_shift_eq_zero (x k : Nat) (h : x.testBit k = false) : x &&& (1 <<< k) = 0 := by
  apply Nat.eq_of_testBit_eq
  intro i
  rw [Nat.testBit_and, Nat.one_shiftLeft, Nat.testBit_two_pow, Nat.zero_testBit]
  by_cases hi : k = i
  · subst hi; simp [h]
  · simp [hi]

/-- The calls of one dispatch, bank by bank, with the lines each bank can call; a
bank whose summary bit is clear makes no call. -/
theorem irqHandler_banks (ext : Handlers) (s : State) :
    ∃ s1 cA cB cC, irqHandler ext s = .ok (s1, cA ++ cB ++ cC) ∧
      (∀ c ∈ cA, c.irq < 32) ∧ (∀ c ∈ cB, 32 ≤ c.irq ∧ c.irq < 64) ∧
      (∀ c ∈ cC, 64 ≤ c.irq ∧ c.irq < 72) ∧
      (s.IRQBasic.val.testBit 8 = false → cA = []) ∧
      (s.IRQBasic.val.testBit 9 = false → cB = []) := by
  obtain ⟨s1, s2, s3, cA, cB, cC, hrun, _, _, _, _, _, _, hA, hB, hC⟩ := irqHandler_run ext s
  have rng : ∀ x base n l, l ∈ (bitsBelow x n).map (fun i => base + i) →
      base ≤ l ∧ l < base + n := by
    intro x base n l hl
    rw [List.mem_map] at hl
    obtain ⟨i, hi, rfl⟩ := hl
    rw [mem_bitsBelow] at hi
    omega
  refine ⟨s3, cA, cB, cC, hrun, ?_, ?_, ?_, ?_, ?_⟩
  · intro c hc
    have hm := List.mem_map_of_mem Call.irq hc
    rw [hA] at hm
    split at hm
    · have := rng _ _ _ _ hm
      omega
    · simp at hm
  · intro c hc
    have hm := List.mem_map_of_mem Call.irq hc
    rw [hB] at hm
    split at hm
    · have := rng _ _ _ _ hm
      omega
    · simp at hm
  · intro c hc
    have hm := List.mem_map_of_mem Call.irq hc
    rw [hC] at hm
    have := rng _ _ _ _ hm
    omega
  · intro h8
    have h0 : ¬ (s.IRQBasic.val &&& (1 <<< 8) ≠ 0) := fun h => h (and_shift_eq_zero _ 8 h8)
    rw [if_neg h0] at hA
    exact List.map_eq_nil_iff.1 hA
  · intro h9
    have h0 : ¬ (s.IRQBasic.val &&& (1 <<< 9) ≠ 0) := fun h => h (and_shift_eq_zero _ 9 h9)
    rw [if_neg h0] at hB
    exact List.map_eq_nil_iff.1 hB

/-- C16: for every value of the basic status, `Pending1` and `Pending2` and every
value of the three `enabled` words, whatever bits they hold, `irqHandler` returns
without an index fault, and every line number it used as an index into the 72-entry
vector table is below 72. -/
theorem irqHandler_index_in_range (ext : Handlers) (s : State) :
    (∀ f, irqHandler ext s ≠ .error f) ∧
    ∃ s1 calls, irqHandler ext s = .ok (s1, calls) ∧
      ∀ c ∈ calls, c.irq < BCM2835_INTC_TOTAL_IRQ := by
  obtain ⟨s1, cA, cB, cC, hrun, rA, rB, rC, _, _⟩ := irqHandler_banks ext s
  refine ⟨?_, s1, cA ++ cB ++ cC, hrun, ?_⟩
  · intro f hf
    rw [hrun] at hf
    exact Except.noConfusion hf
  · intro c hc
    show c.irq < 72
    rw [List.mem_append, List.mem_append] at hc
    rcases hc with (hc | hc) | hc
    · have := rA c hc
      omega
    · have := rB c hc
      omega
    · have := rC c hc
      omega

/-! ## C17: the loop terminates after one call per set bit -/

theorem length_bitsBelow (x : Nat) : ∀ n, (bitsBelow x n).length = popcount x n := by
  intro n
  induction n with
  | zero => rfl
  | succ m ih =>
    by_cases hm : x.testBit m = true
    · rw [bitsBelow, if_pos hm, popcount, if_pos hm, List.length_cons, ih]
      omega
    · rw [bitsBelow, if_neg hm, popcount, if_neg hm, ih]
      omega

theorem popcount_le (x : Nat) : ∀ n, popcount x n ≤ n := by
  intro n
  induction n with
  | zero => exact Nat.le_refl 0
  | succ m ih =>
    rw [popcount]
    split <;> omega

/-- C17: for every 32-bit pending value, `31 - __builtin_clz (pending)` is the
position of the highest set bit of a non-zero word, and clearing that bit makes
the word strictly smaller, which is what the loop of `handleRange` descends on;
run on a word whose set bits name lines of the table, `handleRange` returns after
exactly `popcount (pending)` handler calls, at most 32; on 0 it returns at once
without any call. -/
theorem handleRange_terminates (ext : Handlers) (s : State) (pending base : Nat)
    (hp : pending < 2 ^ 32) :
    (pending ≠ 0 →
      31 - builtin_clz pending < 32 ∧
      pending.testBit (31 - builtin_clz pending) = true ∧
      (∀ j, 31 - builtin_clz pending < j → pending.testBit j = false) ∧
      clearBit pending (31 - builtin_clz pending) < pending) ∧
    ((∀ i, pending.testBit i = true → base + i < BCM2835_INTC_TOTAL_IRQ) →
      ∃ s1 calls, handleRange ext pending base s = .ok (s1, calls) ∧
        calls.length = popcount pending 32 ∧ calls.length ≤ 32) ∧
    handleRange ext 0 base s = .ok (s, []) := by
  refine ⟨?_, ?_, ?_⟩
  · intro h0
    obtain ⟨k, hk32, hk, hhi⟩ := exists_top_of_word pending h0 hp
    have htop : topBit pending = k := topBit_of_top pending k hk32 hk hhi
    have hlt := clearBit_topBit_lt pending h0
    unfold topBit at htop hlt
    rw [htop] at hlt ⊢
    exact ⟨hk32, hk, hhi, hlt⟩
  · intro hb
    obtain ⟨s1, calls, hrun, hirqs, _, _⟩ := handleRange_run ext base 32 (le_refl _) pending s hp hb
    have hlen : calls.length = popcount pending 32 := by
      have := congrArg List.length hirqs
      rw [List.length_map, List.length_map, length_bitsBelow] at this
      exact this
    exact ⟨s1, calls, hrun, hlen, by rw [hlen]; exact popcount_le pending 32⟩
  · rw [handleRange]
    simp

/-- C17 at bank B with bits 3, 7 and 15 pending. -/
theorem handleRange_terminates_witness :
    ((32904 : Nat) ≠ 0 →
      31 - builtin_clz 32904 < 32 ∧
      (32904 : Nat).testBit (31 - builtin_clz 32904) = true ∧
      (∀ j, 31 - builtin_clz 32904 < j → (32904 : Nat).testBit j = false) ∧
      clearBit 32904 (31 - builtin_clz 32904) < 32904) ∧
    ((∀ i, (32904 : Nat).testBit i = true → 32 + i < BCM2835_INTC_TOTAL_IRQ) →
      ∃ s1 calls, handleRange idleHandlers 32904 32 quietState = .ok (s1, calls) ∧
        calls.length = popcount 32904 32 ∧ calls.length ≤ 32) ∧
    handleRange idleHandlers 0 32 quietState = .ok (quietState, []) :=
  handleRange_terminates idleHandlers quietState 32904 32 (by decide)

/-! ## C18: the summary bits gate banks A and B -/

/-- C18: `irqHandler` returns, and if bit 8 of the basic status is clear it calls no
line in [0,32), whatever `Pending1` and `enabled[0]` hold, and if bit 9 is clear it
calls no line in [32,64), whatever `Pending2` and `enabled[1]` hold; nothing else
gates the two banks: with the summary bit of its bank set, every line of banks A
and B whose pending bit and `enabled` bit are both set is called (handlers leaving
the vector table, `enabled` and `Pending2` alone). -/
theorem summary_bits_gate_banks (ext : Handlers) (s : State) :
    ∃ s1 calls, irqHandler ext s = .ok (s1, calls) ∧
      (s.IRQBasic.val.testBit 8 = false → ∀ c ∈ calls, ¬ c.irq < 32) ∧
      (s.IRQBasic.val.testBit 9 = false → ∀ c ∈ calls, ¬ (32 ≤ c.irq ∧ c.irq < 64)) ∧
      (KeepsDispatchData ext → ∀ line, line < 64 →
        lineEnabled s line → linePending s line → bankAnnounced s line →
        ∃ c ∈ calls, c.irq = line) := by
  obtain ⟨s1, cA, cB, cC, hrun, rA, rB, rC, gA, gB⟩ := irqHandler_banks ext s
  refine ⟨s1, cA ++ cB ++ cC, hrun, ?_, ?_, ?_⟩
  · intro h8 c hc hlt
    rw [gA h8, List.nil_append, List.mem_append] at hc
    rcases hc with hc | hc
    · have := rB c hc
      omega
    · have := rC c hc
      omega
  · intro h9 c hc hmid
    rw [gB h9, List.append_nil, List.mem_append] at hc
    rcases hc with hc | hc
    · have := rA c hc
      omega
    · have := rC c hc
      omega
  · intro hk line hline hen hpend hsum
    obtain ⟨t1, calls, hrun2, _, hirqs, _⟩ := irqHandler_of_keeps ext hk s
    have hcalls : cA ++ cB ++ cC = calls := by
      rw [hrun] at hrun2
      simp only [Except.ok.injEq, Prod.mk.injEq] at hrun2
      exact hrun2.2
    have hmem : line ∈ calls.map Call.irq := by
      rw [hirqs]
      exact mem_dispatchOrder s line (by show line < 72; omega) hen hpend hsum
    rw [List.mem_map] at hmem
    obtain ⟨c, hc, hl⟩ := hmem
    exact ⟨c, by rw [hcalls]; exact hc, hl⟩

/-! ## C19: registration leaves IRQ delivery unmasked -/

/-- C19: a successful `RegisterInterrupt` does not restore the caller's interrupt
mask: for every line in [0,72) IRQ delivery is unmasked when the call returns,
whatever the mask was before, so a registration made after `DisableInterrupts`
(which returns 0 and masks delivery) returns with delivery unmasked; a registration
that fails (line of 72 or more) returns -1 and leaves the mask as it was. -/
theorem RegisterInterrupt_unmasks (line bad : Nat) (h : FN_INTERRUPT_HANDLER) (ctx : Nat)
    (s : State) (hline : line < BCM2835_INTC_TOTAL_IRQ) (hbad : BCM2835_INTC_TOTAL_IRQ ≤ bad) :
    (RegisterInterrupt line h ctx s).1 = 0 ∧
    (RegisterInterrupt line h ctx s).2.cpsrI = false ∧
    (DisableInterrupts s).1 = 0 ∧ (DisableInterrupts s).2.cpsrI = true ∧
    (RegisterInterrupt line h ctx (DisableInterrupts s).2).1 = 0 ∧
    (RegisterInterrupt line h ctx (DisableInterrupts s).2).2.cpsrI = false ∧
    (RegisterInterrupt bad h ctx s).1 = -1 ∧
    (RegisterInterrupt bad h ctx s).2.cpsrI = s.cpsrI := by
  have hge : ¬ line ≥ BCM2835_INTC_TOTAL_IRQ := Nat.not_le.mpr hline
  have key : ∀ t : State, (RegisterInterrupt line h ctx t).1 = 0 ∧
      (RegisterInterrupt line h ctx t).2.cpsrI = false := by
    intro t
    unfold RegisterInterrupt
    rw [dif_neg hge]
    exact ⟨rfl, rfl⟩
  have hfail : RegisterInterrupt bad h ctx s = (-1, s) := by
    unfold RegisterInterrupt
    rw [dif_pos hbad]
  refine ⟨(key s).1, (key s).2, rfl, rfl, (key _).1, (key _).2, ?_, ?_⟩
  · rw [hfail]
  · rw [hfail]

/-- C19 at line 0 and at the out-of-range line 72, from a state with delivery masked. -/
theorem RegisterInterrupt_unmasks_witness :
    (RegisterInterrupt 0 (.handlerAt 1) 7 (irqDisable quietState)).1 = 0 ∧
    (RegisterInterrupt 0 (.handlerAt 1) 7 (irqDisable quietState)).2.cpsrI = false ∧
    (DisableInterrupts (irqDisable quietState)).1 = 0 ∧
    (DisableInterrupts (irqDisable quietState)).2.cpsrI = true ∧
    (RegisterInterrupt 0 (.handlerAt 1) 7
      (DisableInterrupts (irqDisable quietState)).2).1 = 0 ∧
    (RegisterInterrupt 0 (.handlerAt 1) 7
      (DisableInterrupts (irqDisable quietState)).2).2.cpsrI = false ∧
    (RegisterInterrupt 72 (.handlerAt 1) 7 (irqDisable quietState)).1 = -1 ∧
    (RegisterInterrupt 72 (.handlerAt 1) 7 (irqDisable quietState)).2.cpsrI =
      (irqDisable quietState).cpsrI :=
  RegisterInterrupt_unmasks 0 72 (.handlerAt 1) 7 (irqDisable quietState) (by decide)
    (by decide)

/-! ## C20: initialisation resets the vector table only -/

/-- C20: `InitInterruptController` leaves the three `enabled` words, the register
block (pending registers, stores made, hardware enable latches) and the CPSR
interrupt mask as they were; so for every line in [0,72), `EnableInterrupt (line)`
followed by `InitInterruptController` gives a state in which the line is still
enabled, in the mirror and in the hardware latch, and its entry is the stub with a
null context. -/
theorem InitInterruptController_frame (line : Nat) (s : State)
    (hline : line < BCM2835_INTC_TOTAL_IRQ) :
    (InitInterruptController s).2.enabled = s.enabled ∧
    (InitInterruptController s).2.IRQBasic = s.IRQBasic ∧
    (InitInterruptController s).2.Pending1 = s.Pending1 ∧
    (InitInterruptController s).2.Pending2 = s.Pending2 ∧
    (InitInterruptController s).2.writes = s.writes ∧
    (InitInterruptController s).2.hwEnable = s.hwEnable ∧
    (InitInterruptController s).2.cpsrI = s.cpsrI ∧
    lineEnabled (InitInterruptController (EnableInterrupt line s).2).2 line ∧
    ((InitInterruptController (EnableInterrupt line s).2).2.hwEnable
      (bankOf line)).val.testBit (line % 32) = true ∧
    entryAt (InitInterruptController (EnableInterrupt line s).2).2 line =
      some ⟨.stubHandler, 0⟩ := by
  have hb : line % 32 < 32 := Nat.mod_lt _ (by decide)
  obtain ⟨he, hh⟩ := EnableInterrupt_words line s hline
  rw [InitInterruptController_eq s, InitInterruptController_eq (EnableInterrupt line s).2]
  refine ⟨rfl, rfl, rfl, rfl, rfl, rfl, rfl, ?_, ?_, ?_⟩
  · show ((EnableInterrupt line s).2.enabled (bankOf line)).val.testBit (line % 32) = true
    rw [he, Function.update_same, setBit_val _ _ hb, testBit_setBit]
    simp
  · show ((EnableInterrupt line s).2.hwEnable (bankOf line)).val.testBit (line % 32) = true
    rw [hh, Function.update_same, setBit_val _ _ hb, testBit_setBit]
    simp
  · unfold entryAt
    rw [dif_pos hline]

/-- C20 at line 70 of bank C, from the state in which line 40 is registered. -/
theorem InitInterruptController_frame_witness :
    (InitInterruptController raisedLine40).2.enabled = raisedLine40.enabled ∧
    (InitInterruptController raisedLine40).2.IRQBasic = raisedLine40.IRQBasic ∧
    (InitInterruptController raisedLine40).2.Pending1 = raisedLine40.Pending1 ∧
    (InitInterruptController raisedLine40).2.Pending2 = raisedLine40.Pending2 ∧
    (InitInterruptController raisedLine40).2.writes = raisedLine40.writes ∧
    (InitInterruptController raisedLine40).2.hwEnable = raisedLine40.hwEnable ∧
    (InitInterruptController raisedLine40).2.cpsrI = raisedLine40.cpsrI ∧
    lineEnabled (InitInterruptController (EnableInterrupt 70 raisedLine40).2).2 70 ∧
    ((InitInterruptController (EnableInterrupt 70 raisedLine40).2).2.hwEnable
      (bankOf 70)).val.testBit (70 % 32) = true ∧
    entryAt (InitInterruptController (EnableInterrupt 70 raisedLine40).2).2 70 =
      some ⟨.stubHandler, 0⟩ :=
  InitInterruptController_frame 70 raisedLine40 (by decide)

/-! ## A line that is ready is called once, with its handler -/

/-- `irqHandler` put together from the runs of its three banks. -/
theorem irqHandler_of_runs (ext : Handlers) (s s1 s2 s3 : State) (c1 c2 c3 : List Call)
    (hA : (if s.IRQBasic.val &&& (1 <<< 8) ≠ 0 then
        handleRange ext (s.Pending1.val &&& (s.enabled 0).val) 0 s else .ok (s, [])) =
      .ok (s1, c1))
    (hB : (if s.IRQBasic.val &&& (1 <<< 9) ≠ 0 then
        handleRange ext (s1.Pending2.val &&& (s1.enabled 1).val) 32 s1 else .ok (s1, [])) =
      .ok (s2, c2))
    (hC : (if s.IRQBasic.val &&& 0xFF ≠ 0 then
        handleRange ext (s.IRQBasic.val &&& 0xFF &&& (s2.enabled 2).val) 64 s2
        else .ok (s2, [])) = .ok (s3, c3)) :
    irqHandler ext s = .ok (s3, c1 ++ c2 ++ c3) := by
  unfold irqHandler
  simp only [hA, hB, hC]

/-- C9 at line 37 of bank B, enabled, pending and announced when the controller is
initialised: the dispatch that follows makes exactly one stub call for it. -/
theorem InitInterruptController_effect_witness :
    ∃ calls, irqHandler idleHandlers (InitInterruptController announcedLine37).2 =
        .ok ((InitInterruptController announcedLine37).2, calls) ∧
      calls.count ⟨.stubHandler, 37, 0⟩ = 1 := by
  obtain ⟨_, _, _, ⟨calls, hrun, _, hcount⟩, _⟩ :=
    InitInterruptController_effect idleHandlers announcedLine37
  exact ⟨calls, hrun, hcount 37 (by decide) (by decide) (by decide) (by decide)⟩

/-- C9 as stated fails for banks A and B: after `InitInterruptController` (entry of
line 37 the stub), line 37 is enabled and its bit is set in `Pending2`, yet with the
summary bit 9 of the basic status clear the dispatch makes no call, so the stub is
not called for line 37. -/
theorem init_then_unannounced_counterexample :
    entryAt unannouncedAfterInit 37 = some ⟨.stubHandler, 0⟩ ∧
    lineEnabled unannouncedAfterInit 37 ∧ linePending unannouncedAfterInit 37 ∧
    unannouncedAfterInit.IRQBasic.val.testBit 9 = false ∧
    irqHandler idleHandlers unannouncedAfterInit = .ok (unannouncedAfterInit, []) := by
  refine ⟨by decide, by decide, by decide, by decide, ?_⟩
  have hA : (if unannouncedAfterInit.IRQBasic.val &&& (1 <<< 8) ≠ 0 then
      handleRange idleHandlers
        (unannouncedAfterInit.Pending1.val &&& (unannouncedAfterInit.enabled 0).val) 0
        unannouncedAfterInit else .ok (unannouncedAfterInit, [])) =
      .ok (unannouncedAfterInit, []) := by
    have e : unannouncedAfterInit.Pending1.val &&& (unannouncedAfterInit.enabled 0).val = 0 := by
      decide
    rw [e, handleRange_zero, ite_self]
  have hB : (if unannouncedAfterInit.IRQBasic.val &&& (1 <<< 9) ≠ 0 then
      handleRange idleHandlers
        (unannouncedAfterInit.Pending2.val &&& (unannouncedAfterInit.enabled 1).val) 32
        unannouncedAfterInit else .ok (unannouncedAfterInit, [])) =
      .ok (unannouncedAfterInit, []) := by
    rw [if_neg (by decide)]
  have hC : (if unannouncedAfterInit.IRQBasic.val &&& 0xFF ≠ 0 then
      handleRange idleHandlers
        (unannouncedAfterInit.IRQBasic.val &&& 0xFF &&& (unannouncedAfterInit.enabled 2).val)
        64 unannouncedAfterInit else .ok (unannouncedAfterInit, [])) =
      .ok (unannouncedAfterInit, []) := by
    rw [if_neg (by decide)]
  exact irqHandler_of_runs idleHandlers unannouncedAfterInit _ _ _ _ _ _ hA hB hC

end Interrupts
